import Mathlib

/-!
Verification development for the warcat-rs WARC processing library.

The Rust sources are shallowly embedded: byte strings become `List Nat`
(each element an octet value), fallible functions return `Option` or
`Except`, and the stateful decoder/encoder structs become explicit state
records with step functions.  Rust `String` values originating from
`String::from_utf8` over header bytes are kept as byte lists (the UTF-8
validity check is not modelled; all inputs considered here are ASCII,
where the two representations coincide byte for byte).
-/

namespace Warcat

/-- ASCII bytes of a string literal (all literals used are ASCII). -/
def bs (s : String) : List Nat := s.toList.map Char.toNat

/-- `u8::is_ascii_digit` -/
def isDigitB (b : Nat) : Bool := 48 ≤ b && b ≤ 57

/-- space or horizontal tab, as matched by nom `space0`/`space1` -/
def isSpTab (b : Nat) : Bool := b = 32 || b = 9

/-- RFC 7230 `tchar` as in `src/parse/fields.rs::is_tchar`:
alphanumeric or one of ``!#$%&'*+-.^_`|~`` (byte values listed). -/
def isTchar (b : Nat) : Bool :=
  (48 ≤ b && b ≤ 57) || (65 ≤ b && b ≤ 90) || (97 ≤ b && b ≤ 122) ||
  b = 33 || b = 35 || b = 36 || b = 37 || b = 38 || b = 39 || b = 42 ||
  b = 43 || b = 45 || b = 46 || b = 94 || b = 95 || b = 96 || b = 124 || b = 126

/-- `is_field_vchar`: ASCII graphic (0x21..=0x7E) or `obs-text` (>= 0x80). -/
def isFieldVchar (b : Nat) : Bool := (33 ≤ b && b ≤ 126) || 128 ≤ b

/-- `is_field_char`: `field-vchar`, space or tab. -/
def isFieldChar (b : Nat) : Bool := isFieldVchar b || b = 32 || b = 9

/-- length of the prefix of `l` satisfying `p` (nom `take_while`). -/
def takeWhileCount (p : Nat → Bool) (l : List Nat) : Nat := (l.takeWhile p).length

theorem takeWhileCount_le (p : Nat → Bool) (l : List Nat) : takeWhileCount p l ≤ l.length := by
  induction l with
  | nil => simp [takeWhileCount]
  | cons a t ih =>
    simp only [takeWhileCount, List.takeWhile_cons] at ih ⊢
    split
    · simpa using ih
    · simp

/-- nom `line_ending`: matches `\r\n` (length 2) or `\n` (length 1). -/
def lineEndingLen : List Nat → Option Nat
  | b :: c :: _ => if b = 13 && c = 10 then some 2 else if b = 10 then some 1 else none
  | b :: [] => if b = 10 then some 1 else none
  | [] => none

theorem lineEndingLen_le {l : List Nat} {n : Nat} (h : lineEndingLen l = some n) :
    1 ≤ n ∧ n ≤ l.length := by
  unfold lineEndingLen at h
  split at h
  · split at h
    · injection h with h; subst h; simp [List.length_cons]
    · split at h
      · injection h with h; subst h; simp [List.length_cons]
      · cases h
  · split at h
    · injection h with h; subst h; simp
    · cases h
  · cases h

/-- `src/parse/header_deliminator.rs::field_lines` composed as in
`scan_header_deliminator`: zero or more non-empty lines (`take_till1` of
non-CR/LF bytes followed by a line ending) terminated by an empty line;
returns the total number of bytes consumed (the inclusive delimiter index).
The loop is embedded with explicit fuel (each iteration consumes at least
one byte, so `length + 1` fuel always suffices). -/
def scanHeaderDelimF : Nat → List Nat → Option Nat
  | 0, _ => none
  | fuel + 1, input =>
    let run := takeWhileCount (fun b => !(b == 13 || b == 10)) input
    if run = 0 then lineEndingLen input
    else
      match lineEndingLen (input.drop run) with
      | some n => (scanHeaderDelimF fuel (input.drop (run + n))).map (· + run + n)
      | none => none

def scanHeaderDelim (input : List Nat) : Option Nat :=
  scanHeaderDelimF (input.length + 1) input

/-- `src/parse/warc.rs::version`: tag `WARC/` followed by `take_while`
of ASCII digits and dots; returns the consumed length. -/
def versionLen (l : List Nat) : Option Nat :=
  if (bs "WARC/").isPrefixOf l then
    some (5 + takeWhileCount (fun b => isDigitB b || b == 46) (l.drop 5))
  else none

/-- `src/parse/warc.rs::version_line`: `version` terminated by `line_ending`;
returns (version length, total consumed length). -/
def versionLineLen (l : List Nat) : Option (Nat × Nat) :=
  match versionLen l with
  | some v =>
    match lineEndingLen (l.drop v) with
    | some n => some (v, v + n)
    | none => none
  | none => none

/-- `field_content`: one `field-vchar` then `take_while(is_field_char)`;
returns the consumed length. -/
def fieldContentLen : List Nat → Option Nat
  | [] => none
  | b :: rest =>
    if isFieldVchar b then some (1 + takeWhileCount isFieldChar rest) else none

theorem fieldContentLen_bounds {l : List Nat} {k : Nat} (h : fieldContentLen l = some k) :
    1 ≤ k ∧ k ≤ l.length := by
  match l, h with
  | b :: rest, h =>
    by_cases hv : isFieldVchar b
    · simp [fieldContentLen, hv] at h
      have := takeWhileCount_le isFieldChar rest
      simp; omega
    · simp [fieldContentLen, hv] at h

/-- `obs_fold`: a line ending followed by one or more spaces/tabs;
returns the consumed length. -/
def obsFoldLen (l : List Nat) : Option Nat :=
  match lineEndingLen l with
  | some n =>
    let sp := takeWhileCount isSpTab (l.drop n)
    if sp = 0 then none else some (n + sp)
  | none => none

theorem obsFoldLen_bounds {l : List Nat} {k : Nat} (h : obsFoldLen l = some k) :
    1 ≤ k ∧ k ≤ l.length := by
  unfold obsFoldLen at h
  cases hle : lineEndingLen l with
  | none => rw [hle] at h; cases h
  | some n =>
    rw [hle] at h
    simp only at h
    by_cases hsp : takeWhileCount isSpTab (l.drop n) = 0
    · simp [hsp] at h
    · simp [hsp] at h
      have h1 := lineEndingLen_le hle
      have h2 := takeWhileCount_le isSpTab (l.drop n)
      simp only [List.length_drop] at h2
      omega

/-- `field_value`: `recognize(many0(alt((field_content, obs_fold))))`;
returns the consumed length (fuel-based loop embedding). -/
def fieldValueLenF : Nat → List Nat → Nat
  | 0, _ => 0
  | fuel + 1, l =>
    match fieldContentLen l with
    | some k => k + fieldValueLenF fuel (l.drop k)
    | none =>
      match obsFoldLen l with
      | some k => k + fieldValueLenF fuel (l.drop k)
      | none => 0

def fieldValueLen (l : List Nat) : Nat := fieldValueLenF (l.length + 1) l

/-- `field_value_no_multline`: `recognize(many0(field_content))`;
returns the consumed length (fuel-based loop embedding). -/
def fieldValueNoFoldLenF : Nat → List Nat → Nat
  | 0, _ => 0
  | fuel + 1, l =>
    match fieldContentLen l with
    | some k => k + fieldValueNoFoldLenF fuel (l.drop k)
    | none => 0

def fieldValueNoFoldLen (l : List Nat) : Nat := fieldValueNoFoldLenF (l.length + 1) l

theorem fieldValueLenF_le (fuel : Nat) : ∀ l : List Nat, fieldValueLenF fuel l ≤ l.length := by
  induction fuel with
  | zero => intro l; simp [fieldValueLenF]
  | succ fuel ih =>
    intro l
    unfold fieldValueLenF
    cases hc : fieldContentLen l with
    | some k =>
      have h1 := fieldContentLen_bounds hc
      have h2 := ih (l.drop k)
      simp only [List.length_drop] at h2
      simp only []
      omega
    | none =>
      cases ho : obsFoldLen l with
      | some k =>
        have h1 := obsFoldLen_bounds ho
        have h2 := ih (l.drop k)
        simp only [List.length_drop] at h2
        simp only []
        omega
      | none => simp

theorem fieldValueLen_le (l : List Nat) : fieldValueLen l ≤ l.length :=
  fieldValueLenF_le _ l

/-- `field_pair`: `separated_pair(field_name, tag(":"), delimited(space0, field_value, space0))`;
returns (name bytes, value bytes, total consumed length). -/
def fieldPairP (l : List Nat) : Option (List Nat × List Nat × Nat) :=
  let n := takeWhileCount isTchar l
  if n = 0 then none
  else
    match l.drop n with
    | [] => none
    | b :: afterColon =>
      if b = 58 then
        let s0 := takeWhileCount isSpTab afterColon
        let rest := afterColon.drop s0
        let v := fieldValueLen rest
        let s1 := takeWhileCount isSpTab (rest.drop v)
        some (l.take n, rest.take v, n + 1 + s0 + v + s1)
      else none

theorem fieldPairP_consumed_bounds {l : List Nat} {nm v : List Nat} {k : Nat}
    (h : fieldPairP l = some (nm, v, k)) : 1 ≤ k ∧ k ≤ l.length := by
  unfold fieldPairP at h
  by_cases hn : takeWhileCount isTchar l = 0
  · simp [hn] at h
  · simp only [hn, if_false] at h
    cases hd : l.drop (takeWhileCount isTchar l) with
    | nil => rw [hd] at h; cases h
    | cons b rest =>
      rw [hd] at h
      by_cases hb : b = 58
      · simp only [hb, if_true, Option.some.injEq] at h
        obtain ⟨-, -, hk⟩ := h
        have hN := takeWhileCount_le isTchar l
        have hdl : rest.length + 1 = l.length - takeWhileCount isTchar l := by
          have h5 : (l.drop (takeWhileCount isTchar l)).length =
              l.length - takeWhileCount isTchar l := List.length_drop _ _
          rw [hd] at h5
          simpa using h5
        have hs0 := takeWhileCount_le isSpTab rest
        have hv := fieldValueLen_le (rest.drop (takeWhileCount isSpTab rest))
        have hs1 := takeWhileCount_le isSpTab
          ((rest.drop (takeWhileCount isSpTab rest)).drop
            (fieldValueLen (rest.drop (takeWhileCount isSpTab rest))))
        simp only [List.length_drop] at hv hs1
        omega
      · simp [hb] at h

/-- `src/parse.rs::remove_line_folding`: replace every match of the regex
`(?:\r\n|\n)[ \t]+` by a single space (fuel-based scanning loop; the
scan advances one byte when no fold matches at the current position). -/
def removeLineFoldingF : Nat → List Nat → List Nat
  | 0, l => l
  | fuel + 1, l =>
    match l with
    | [] => []
    | b :: rest =>
      if b = 13 then
        match rest with
        | c :: rest2 =>
          if c = 10 then
            let k := takeWhileCount isSpTab rest2
            if k = 0 then 13 :: removeLineFoldingF fuel (10 :: rest2)
            else 32 :: removeLineFoldingF fuel (rest2.drop k)
          else 13 :: removeLineFoldingF fuel (c :: rest2)
        | [] => [13]
      else if b = 10 then
        let k := takeWhileCount isSpTab rest
        if k = 0 then 10 :: removeLineFoldingF fuel rest
        else 32 :: removeLineFoldingF fuel (rest.drop k)
      else b :: removeLineFoldingF fuel rest

def removeLineFolding (l : List Nat) : List Nat := removeLineFoldingF (l.length + 1) l

/-- `u8::to_ascii_lowercase` -/
def lowerB (b : Nat) : Nat := if 65 ≤ b ∧ b ≤ 90 then b + 32 else b

/-- `u8::to_ascii_uppercase` -/
def upperB (b : Nat) : Nat := if 97 ≤ b ∧ b ≤ 122 then b - 32 else b

/-- `eq_ignore_ascii_case` on byte strings. -/
def eqIcase (a b : List Nat) : Bool := a.map lowerB == b.map lowerB

/-- `src/fields.rs::FieldMap`: an ordered multimap with case-insensitive
name lookup; represented directly by its `fields` vector. -/
abbrev FieldMap : Type := List (List Nat × List Nat)

/-- `FieldMap::get`: first value whose name matches case-insensitively. -/
def fmGet (m : FieldMap) (name : List Nat) : Option (List Nat) :=
  (m.find? (fun nv => eqIcase nv.1 name)).map (·.2)

/-- `FieldMap::contains_name` -/
def fmContains (m : FieldMap) (name : List Nat) : Bool :=
  m.any (fun nv => eqIcase nv.1 name)

/-- `FieldMap::remove` -/
def fmRemove (m : FieldMap) (name : List Nat) : FieldMap :=
  m.filter (fun nv => !(eqIcase nv.1 name))

/-- `FieldMap::insert`: remove all entries of this name, then push. -/
def fmInsert (m : FieldMap) (name value : List Nat) : FieldMap :=
  fmRemove m name ++ [(name, value)]

/-- `FieldMap::get_all` -/
def fmGetAll (m : FieldMap) (name : List Nat) : List (List Nat) :=
  (m.filter (fun nv => eqIcase nv.1 name)).map (·.2)

/-- `src/header.rs::WarcHeader`: version string plus ordered fields.
Strings are modelled as their byte lists. -/
structure WarcHeader : Type where
  version : List Nat
  fields : FieldMap
deriving DecidableEq

/-- `src/parse/fields.rs::field_pairs`: `many0(terminated(field_pair, line_ending))`
(fuel-based loop embedding). -/
def fieldPairsF : Nat → List Nat → List (List Nat × List Nat)
  | 0, _ => []
  | fuel + 1, l =>
    match fieldPairP l with
    | none => []
    | some (nm, v, k) =>
      match lineEndingLen (l.drop k) with
      | none => []
      | some n2 => (nm, v) :: fieldPairsF fuel (l.drop (k + n2))

def fieldPairsP (l : List Nat) : List (List Nat × List Nat) :=
  fieldPairsF (l.length + 1) l

/-- `WarcHeader::parse`: version line, then field pairs; each pair is
inserted after removing line folding from the value.  (The Rust code also
checks UTF-8 validity of names and values via `String::from_utf8`; that
check is not modelled, byte lists are kept as-is.) -/
def parseWarcHeader (input : List Nat) : Option WarcHeader :=
  match versionLineLen input with
  | none => none
  | some (v, total) =>
    some { version := input.take v
           fields := (fieldPairsP (input.drop total)).foldl
             (fun m nv => fmInsert m nv.1 (removeLineFolding nv.2)) [] }

/-- `src/parse.rs::parse_u64_strict`: all characters must be ASCII digits,
then standard `u64` parsing (empty input and values above `u64::MAX` fail). -/
def parseU64Strict (v : List Nat) : Option Nat :=
  if v.isEmpty then none
  else if v.all isDigitB then
    let n := v.foldl (fun a b => a * 10 + (b - 48)) 0
    if n < 2 ^ 64 then some n else none
  else none

/-- `WarcHeader::content_length`: `get_u64_strict("Content-Length")`,
errors both when the field is missing and when parsing fails. -/
def contentLengthF (h : WarcHeader) : Option Nat :=
  (fmGet h.fields (bs "Content-Length")).bind parseU64Strict

/-- `WarcHeader::serialize`: version, CRLF, `name: value` CRLF per field,
terminating CRLF. -/
def serializeHeader (h : WarcHeader) : List Nat :=
  h.version ++ bs "\r\n" ++
    (h.fields.map (fun nv => nv.1 ++ bs ": " ++ nv.2 ++ bs "\r\n")).join ++ bs "\r\n"

/-- `validate_field_name`: `all_consuming(field_name)` where `field_name`
is `take_while1(is_tchar)`: succeeds iff the name is nonempty and all
bytes are `tchar`. -/
def validFieldName (v : List Nat) : Bool := !v.isEmpty && v.all isTchar

/-- `validate_field_value(value, false)`:
`all_consuming(field_value_no_multline)`: the `many0(field_content)`
recognizer must consume the entire input. -/
def validFieldValueNoFold (v : List Nat) : Bool := fieldValueNoFoldLen v == v.length

/-- `WarcHeader::validate`: run the `version` parser on the version bytes
(its result and any unconsumed remainder are discarded), then validate
every field name and value (no obsolete line folding allowed). -/
def validateHeader (h : WarcHeader) : Bool :=
  (versionLen h.version).isSome &&
    h.fields.all (fun nv => validFieldName nv.1 && validFieldValueNoFold nv.2)

/-! ## Record writer (`src/warc/encode.rs` / `src/write.rs`)

`Encoder` and `Writer` share the same block-writing logic.  The identity
compressor and the `BufWriter` pass bytes through unchanged (`restart_stream`
and `flush` are no-ops for identity), so the writer state is the declared
`length`, the `written` counter and the bytes emitted so far. -/

/-- `EncStateBlock` plus the bytes written to the output so far. -/
structure EncBlock : Type where
  length : Nat
  written : Nat
  out : List Nat
deriving DecidableEq

/-- Errors out of `Encoder::write_header`. -/
inductive WriteHeaderErr : Type where
  | invalidHeader
  | invalidContentLength
deriving DecidableEq

/-- `Encoder::write_header`: validate, serialize to the output, read
`Content-Length`, and transition to the `Block` typestate. -/
def writeHeader (out : List Nat) (h : WarcHeader) : Except WriteHeaderErr EncBlock :=
  if validateHeader h then
    match contentLengthF h with
    | some len => .ok { length := len, written := 0, out := out ++ serializeHeader h }
    | none => .error .invalidContentLength
  else .error .invalidHeader

/-- `Encoder::write_block_impl`: truncate the chunk to the remaining
declared length, write it, and if the declared length is now reached write
the `\r\n\r\n` boundary (`write_finish_block`).  Returns the new state and
the number of bytes accepted (the Rust `write` return value). -/
def writeBlockImpl (st : EncBlock) (chunk : List Nat) : EncBlock × Nat :=
  let remain := st.length - st.written
  let bufUpper := min chunk.length remain
  let written2 := st.written + bufUpper
  let out2 := st.out ++ chunk.take bufUpper
  if st.length = written2 then
    ({ length := st.length, written := written2, out := out2 ++ bs "\r\n\r\n" }, bufUpper)
  else
    ({ length := st.length, written := written2, out := out2 }, bufUpper)

/-- `Encoder::finish_block`: fails with `ContentLengthMismatch (expected,
actual)` unless `written == length`; on success returns to the `Header`
typestate (represented by the output bytes, which it leaves untouched). -/
def finishBlock (st : EncBlock) : Except (Nat × Nat) (List Nat) :=
  if st.length = st.written then .ok st.out else .error (st.length, st.written)

/-- Folding a sequence of `write` calls (each Rust `write(buf)` call with
the bytes of one chunk). -/
def writeAllChunks (st : EncBlock) (chunks : List (List Nat)) : EncBlock :=
  chunks.foldl (fun s c => (writeBlockImpl s c).1) st

theorem writeBlockImpl_under (st : EncBlock) (c : List Nat)
    (h : st.written + c.length < st.length) :
    writeBlockImpl st c =
      (⟨st.length, st.written + c.length, st.out ++ c⟩, c.length) := by
  unfold writeBlockImpl
  have h1 : min c.length (st.length - st.written) = c.length := by omega
  simp only [h1]
  have h2 : ¬(st.length = st.written + c.length) := by omega
  simp [h2]

theorem writeAllChunks_under (chunks : List (List Nat)) : ∀ st : EncBlock,
    st.written + (chunks.map List.length).sum < st.length →
    writeAllChunks st chunks =
      ⟨st.length, st.written + (chunks.map List.length).sum, st.out ++ chunks.join⟩ := by
  induction chunks with
  | nil => intro st _; simp [writeAllChunks]
  | cons c rest ih =>
    intro st h
    simp only [List.map_cons, List.sum_cons] at h
    have h1 : st.written + c.length < st.length := by omega
    unfold writeAllChunks
    simp only [List.foldl_cons]
    rw [show (writeBlockImpl st c).1 =
        (⟨st.length, st.written + c.length, st.out ++ c⟩ : EncBlock) by
      rw [writeBlockImpl_under st c h1]]
    have h2 := ih (⟨st.length, st.written + c.length, st.out ++ c⟩ : EncBlock)
      (by simpa using (by omega : st.written + c.length
        + (rest.map List.length).sum < st.length))
    unfold writeAllChunks at h2
    rw [h2]
    simp
    omega

deriving instance DecidableEq for Except

theorem writeHeader_ok {o : List Nat} {h : WarcHeader} {st : EncBlock}
    (hwh : writeHeader o h = .ok st) :
    st.written = 0 ∧ st.out = o ++ serializeHeader h ∧ contentLengthF h = some st.length := by
  unfold writeHeader at hwh
  by_cases hv : validateHeader h
  · simp only [hv, if_true] at hwh
    cases hcl : contentLengthF h with
    | some len =>
      rw [hcl] at hwh
      simp only [Except.ok.injEq] at hwh
      subst hwh
      exact ⟨rfl, rfl, rfl⟩
    | none => rw [hcl] at hwh; cases hwh
  · simp [hv] at hwh

/-- A minimal header `WARC/1.1` with only a `Content-Length` field. -/
def hdrCL (n : String) : WarcHeader := ⟨bs "WARC/1.1", [(bs "Content-Length", bs n)]⟩

/-- C2 counterexample: declared `Content-Length: 1`, the caller supplies a
single `write` of the 2 bytes `ab` (`M = 2 ≠ N = 1`).  The writer truncates
and accepts only 1 byte, emits the `\r\n\r\n` boundary at once, and
`finish_block` then succeeds — contradicting the claim that `finish_block`
fails with `ContentLengthMismatch` and that no boundary is emitted whenever
`M ≠ N`. -/
theorem C2_counterexample :
    writeHeader [] (hdrCL "1") = .ok ⟨1, 0, serializeHeader (hdrCL "1")⟩ ∧
    (writeBlockImpl ⟨1, 0, serializeHeader (hdrCL "1")⟩ (bs "ab")).2 = 1 ∧
    finishBlock (writeBlockImpl ⟨1, 0, serializeHeader (hdrCL "1")⟩ (bs "ab")).1 =
      .ok (serializeHeader (hdrCL "1") ++ bs "a" ++ bs "\r\n\r\n") := by decide

/-- C2 (amended): if the total number of bytes supplied before
`finish_block` is less than the declared Content-Length `N`, then
`finish_block` fails with `ContentLengthMismatch { expected := N, actual :=
M }` and no `\r\n\r\n` boundary is emitted (the output holds exactly the
serialized header followed by the supplied bytes).  Bytes beyond `N` are
never accepted by the writer (`write` truncates), and as soon as the
accepted count reaches `N` the boundary is emitted by `write` itself, so
`M < N` is the only way `finish_block` can fail. -/
theorem C2_short_supply_fails (hdr : WarcHeader) (o0 : List Nat) (st0 : EncBlock)
    (chunks : List (List Nat))
    (hwh : writeHeader o0 hdr = .ok st0)
    (hsum : (chunks.map List.length).sum < st0.length) :
    finishBlock (writeAllChunks st0 chunks) =
      .error (st0.length, (chunks.map List.length).sum) ∧
    (writeAllChunks st0 chunks).out = o0 ++ serializeHeader hdr ++ chunks.join := by
  obtain ⟨hw0, hout, -⟩ := writeHeader_ok hwh
  have h1 := writeAllChunks_under chunks st0 (by omega)
  rw [h1]
  constructor
  · unfold finishBlock
    simp only [hw0, Nat.zero_add]
    have h2 : ¬(st0.length = (chunks.map List.length).sum) := by omega
    simp [h2]
  · simp [hout]

/-- Witness for `C2_short_supply_fails` at `Content-Length: 2` with one
supplied chunk `a` (1 byte). -/
theorem C2_short_supply_fails_witness :
    finishBlock (writeAllChunks ⟨2, 0, serializeHeader (hdrCL "2")⟩ [bs "a"]) =
      .error (2, 1) ∧
    (writeAllChunks ⟨2, 0, serializeHeader (hdrCL "2")⟩ [bs "a"]).out =
      [] ++ serializeHeader (hdrCL "2") ++ [bs "a"].join := by
  have h := C2_short_supply_fails (hdrCL "2") [] ⟨2, 0, serializeHeader (hdrCL "2")⟩
    [bs "a"] (by decide) (by decide)
  simpa using h

/-- C3, evaluated at the failing input: a record with `Content-Length: 0`
where the user calls `write_header` and then `finish_block` without any
intervening `write` call.  `finish_block` succeeds but the output holds
only the serialized header: the mandatory `\r\n\r\n` record boundary that
the specification says `finish_block` immediately writes is missing (it is
emitted only by a `write` call reaching the declared length, as the third
conjunct shows for an empty `write`). -/
theorem C3_zero_length_finish_block_no_boundary :
    writeHeader [] (hdrCL "0") = .ok ⟨0, 0, serializeHeader (hdrCL "0")⟩ ∧
    finishBlock ⟨0, 0, serializeHeader (hdrCL "0")⟩ = .ok (serializeHeader (hdrCL "0")) ∧
    (writeBlockImpl ⟨0, 0, serializeHeader (hdrCL "0")⟩ []).1.out =
      serializeHeader (hdrCL "0") ++ bs "\r\n\r\n" ∧
    serializeHeader (hdrCL "0") ≠ serializeHeader (hdrCL "0") ++ bs "\r\n\r\n" := by decide

/-- The version grammar named by the spec sentence for C9:
`WARC/<digits>(.<digits>)*` (one or more digit groups separated by single
dots). -/
def specVersionGrammar (v : List Nat) : Bool :=
  (bs "WARC/").isPrefixOf v &&
    ((v.drop 5).splitOn 46).all (fun p => !p.isEmpty && p.all isDigitB)

/-- C9 counterexample: a header whose version string is `WARC/1x` does not
match `WARC/<digits>(.<digits)*>`, yet `write_header` accepts it: the
`version` nom parser is run without `all_consuming`, so it succeeds on any
version starting with `WARC/` and ignores trailing bytes. -/
theorem C9_counterexample :
    (writeHeader [] ⟨bs "WARC/1x", [(bs "Content-Length", bs "0")]⟩).isOk = true ∧
    specVersionGrammar (bs "WARC/1x") = false := by decide

/-- C9 (amended): `write_header` succeeds exactly when the version string
starts with the literal `WARC/` (the digits-and-dots tail is consumed
greedily but never required or bounded, because the nom `version` parser
runs without `all_consuming`), every field name is a nonempty RFC 7230
token, every field value matches the field-value grammar without obsolete
line folding, and `Content-Length` parses as a `u64` with strict ASCII
digits.  On success it serializes the version followed by `\r\n`, then
`name: value\r\n` for each field in order, then a terminating `\r\n`, and
transitions the writer to the `Block` typestate with the declared length
and a zeroed write counter. -/
theorem C9_write_header_characterization (o : List Nat) (h : WarcHeader) :
    ((writeHeader o h).isOk = true ↔
      ((bs "WARC/").isPrefixOf h.version = true ∧
        (∀ nv ∈ h.fields, validFieldName nv.1 = true ∧ validFieldValueNoFold nv.2 = true) ∧
        (contentLengthF h).isSome = true)) ∧
    (∀ st : EncBlock, writeHeader o h = .ok st →
      st.out = o ++ serializeHeader h ∧ st.written = 0 ∧ contentLengthF h = some st.length) := by
  have hveq : validateHeader h =
      ((bs "WARC/").isPrefixOf h.version &&
        h.fields.all (fun nv => validFieldName nv.1 && validFieldValueNoFold nv.2)) := by
    unfold validateHeader versionLen
    by_cases hp : (bs "WARC/").isPrefixOf h.version <;> simp [hp]
  constructor
  · constructor
    · intro hok
      have hv : validateHeader h = true := by
        by_contra hv
        unfold writeHeader at hok
        rw [Bool.not_eq_true] at hv
        simp [hv, Except.isOk, Except.toBool] at hok
      have hcl : (contentLengthF h).isSome = true := by
        unfold writeHeader at hok
        rw [hv] at hok
        simp only [if_true] at hok
        cases hcl2 : contentLengthF h with
        | some len => rfl
        | none => rw [hcl2] at hok; simp [Except.isOk, Except.toBool] at hok
      rw [hveq] at hv
      simp only [Bool.and_eq_true, List.all_eq_true] at hv
      refine ⟨hv.1, ?_, hcl⟩
      intro nv hnv
      have := hv.2 nv hnv
      simpa [Bool.and_eq_true] using this
    · rintro ⟨hp, hall, hcl⟩
      have hv : validateHeader h = true := by
        rw [hveq]
        simp only [Bool.and_eq_true, List.all_eq_true]
        refine ⟨hp, ?_⟩
        intro nv hnv
        have := hall nv hnv
        simp [Bool.and_eq_true, this.1, this.2]
      unfold writeHeader
      rw [hv]
      simp only [if_true]
      cases hcl2 : contentLengthF h with
      | some len => simp [Except.isOk, Except.toBool]
      | none => rw [hcl2] at hcl; cases hcl
  · intro st hst
    obtain ⟨h1, h2, h3⟩ := writeHeader_ok hst
    exact ⟨h2, h1, h3⟩

/-- Witness for `C9_write_header_characterization` at the minimal
`Content-Length: 0` header. -/
theorem C9_write_header_characterization_witness :
    (writeHeader [] (hdrCL "0")).isOk = true ∧
    (writeHeader [] (hdrCL "0") = .ok ⟨0, 0, [] ++ serializeHeader (hdrCL "0")⟩ →
      ([] ++ serializeHeader (hdrCL "0") : List Nat) = [] ++ serializeHeader (hdrCL "0")) := by
  constructor
  · exact (C9_write_header_characterization [] (hdrCL "0")).1.mpr (by decide)
  · intro hst
    exact ((C9_write_header_characterization [] (hdrCL "0")).2 _ hst).1.symm ▸ rfl

/-! ## Record push decoder (`src/warc/decode.rs`) for identity compression

The decoder is modelled at `Format::Identity` (the default configuration):
the push decompressor passes every written byte through unchanged into its
output `VecDeque` (`compress.rs`, `PushDecoder::Identity`), its `write`
never returns 0, `supports_concatenation()` is false and `is_identity()`
is true.  Consequently `deferred_input_buf` stays empty, `decompressor_eof`
stays false, and `consume_deferred_input_buf` is a no-op; those fields are
dropped from the state.  The `VecDeque` is modelled as a flat list (the
code calls `make_contiguous`, making `as_slices().0` the entire content).
-/

inductive PDState : Type where
  | pendingHeader | header | block | recordBoundary | endOfSegment | finished
deriving DecidableEq

/-- `PushDecoder` state (identity decompression). -/
structure PushDec : Type where
  state : PDState
  /-- decompressor output buffer (decoded, undelivered bytes) -/
  buf : List Nat
  inputEof : Bool
  /-- `bytes_written_decoder` -/
  bytesWritten : Nat
  /-- `decoded_bytes_consumed` -/
  decodedConsumed : Nat
  /-- `record_boundary_position` -/
  recordBoundaryPos : Nat
  /-- `block_length` -/
  blockLength : Nat
  /-- `block_current_position` -/
  blockPos : Nat
  /-- `buf_output_max_len` -/
  bufOutMaxLen : Nat
  /-- `buf_output_reference_len` -/
  bufOutRefLen : Nat
deriving DecidableEq

/-- `PushDecoder::new` (BUFFER_LENGTH = IO_BUFFER_LENGTH = 4096). -/
def pushDecNew : PushDec :=
  ⟨.pendingHeader, [], false, 0, 0, 0, 0, 0, 4096, 0⟩

/-- Error kinds reachable from decoding (`ProtocolErrorKind`, parse
failures, and the two `std::io` error kinds raised by the decoder and its
pull wrapper). -/
inductive DecErr : Type where
  | headerTooBig
  | unknownHeader
  | unexpectedCompression
  | invalidRecordBoundary
  | invalidContentLength
  | parseFailure
  | invalidInput
  | unexpectedEof
deriving DecidableEq

/-- `PushDecoderEvent` (the `BlockData` borrow is modelled by copying the
referenced bytes). -/
inductive DEvent : Type where
  | ready
  | finished
  | wantData
  | cont
  | header (h : WarcHeader)
  | blockData (data : List Nat)
  | endRecord
deriving DecidableEq

/-- `PushDecoderEvent::is_end_record` -/
def DEvent.isEndRecord : DEvent → Bool
  | .endRecord => true
  | _ => false

/-- `PushDecoderEvent::is_header` -/
def DEvent.isHeader : DEvent → Bool
  | .header _ => true
  | _ => false

/-- `PushDecoderEvent::is_finished` -/
def DEvent.isFinished : DEvent → Bool
  | .finished => true
  | _ => false

/-- `src/warc/decode.rs::detect_header` -/
inductive HeaderDetect : Type where
  | warc | notWarc | compression | notSure
deriving DecidableEq

def detectHeader (buf : List Nat) : HeaderDetect :=
  if (bs "WARC/").isPrefixOf buf then .warc
  else if [31, 139].isPrefixOf buf || [40, 181, 47, 253].isPrefixOf buf then .compression
  else if 5 ≤ buf.length then .notWarc
  else .notSure

/-- `PushDecoder::precheck_header` -/
def precheckHeader (s : PushDec) : Option DecErr :=
  match detectHeader s.buf with
  | .warc => none
  | .compression => some .unexpectedCompression
  | .notWarc => some .unknownHeader
  | .notSure => none

/-- `PushDecoder::check_max_header_length` (MAX_HEADER_LENGTH = 32768). -/
def checkMaxHeaderLength (s : PushDec) : Option DecErr :=
  if s.buf.length > 32768 then some .headerTooBig else none

/-- `PushDecoder::process_decodable_header`: parse the header bytes and
its `Content-Length`, then drain them, reset the block counters and move
to `Block`.  On failure the state is left unchanged. -/
def processDecodableHeader (s : PushDec) (index : Nat) :
    PushDec × Except DecErr DEvent :=
  match parseWarcHeader (s.buf.take index) with
  | none => (s, .error .parseFailure)
  | some h =>
    match contentLengthF h with
    | none => (s, .error .invalidContentLength)
    | some len =>
      ({ s with buf := s.buf.drop index,
                decodedConsumed := s.decodedConsumed + index,
                blockPos := 0,
                blockLength := len,
                state := .block },
       .ok (.header h))

/-- `PushDecoder::process_header` -/
def processHeader (s : PushDec) : PushDec × Except DecErr DEvent :=
  match scanHeaderDelim s.buf with
  | some index => processDecodableHeader s index
  | none =>
    match precheckHeader s with
    | some e => (s, .error e)
    | none =>
      match checkMaxHeaderLength s with
      | some e => (s, .error e)
      | none => (s, .ok .wantData)

/-- `PushDecoder::process_block` (`remaining_bytes` and `consume_len`
inlined: `consume_len = min(min(buf_output_max_len, slice0.len()),
remaining_bytes)`). -/
def processBlock (s : PushDec) : PushDec × Except DecErr DEvent :=
  if s.blockLength - s.blockPos = 0 then
    ({ s with state := .recordBoundary }, .ok .cont)
  else if s.buf.isEmpty then
    (s, .ok .wantData)
  else
    ({ s with
        blockPos :=
          s.blockPos + min (min s.bufOutMaxLen s.buf.length) (s.blockLength - s.blockPos),
        bufOutRefLen := min (min s.bufOutMaxLen s.buf.length) (s.blockLength - s.blockPos),
        decodedConsumed := s.decodedConsumed +
          min (min s.bufOutMaxLen s.buf.length) (s.blockLength - s.blockPos) },
     .ok (.blockData (s.buf.take (min (min s.bufOutMaxLen s.buf.length)
        (s.blockLength - s.blockPos)))))

/-- `PushDecoder::process_record_boundary` -/
def processRecordBoundary (s : PushDec) : PushDec × Except DecErr DEvent :=
  if 4 ≤ s.buf.length then
    if s.buf.take 4 = bs "\r\n\r\n" then
      ({ s with buf := s.buf.drop 4,
                decodedConsumed := s.decodedConsumed + 4,
                state := .endOfSegment },
       .ok .cont)
    else (s, .error .invalidRecordBoundary)
  else (s, .ok .wantData)

/-- `PushDecoder::reset_for_next_record` at identity format:
`record_boundary_position` is the decoded byte count, no compression
segment handling applies, and the next state is chosen from the buffer
and EOF flags. -/
def resetForNextRecord (s : PushDec) : PushDec :=
  let s2 := { s with recordBoundaryPos := s.decodedConsumed }
  if s2.buf.isEmpty then
    if s2.inputEof then { s2 with state := .finished }
    else { s2 with state := .pendingHeader }
  else { s2 with state := .header }

/-- `PushDecoder::process_end_of_segment` at identity format: the
concatenation branch does not apply, so the record is finished at once. -/
def processEndOfSegment (s : PushDec) : PushDec × Except DecErr DEvent :=
  (resetForNextRecord s, .ok .endRecord)

/-- The state dispatch of `PushDecoder::get_event`. -/
def getEventDispatch (s2 : PushDec) : PushDec × Except DecErr DEvent :=
  match s2.state with
  | .pendingHeader => (s2, .ok .ready)
  | .header => processHeader s2
  | .block => processBlock s2
  | .recordBoundary => processRecordBoundary s2
  | .endOfSegment => processEndOfSegment s2
  | .finished => (s2, .ok .finished)

/-- `PushDecoder::get_event`: drain the bytes borrowed by the previous
`BlockData`, then dispatch on the state. -/
def getEvent (s : PushDec) : PushDec × Except DecErr DEvent :=
  getEventDispatch { s with buf := s.buf.drop s.bufOutRefLen, bufOutRefLen := 0 }

/-- `<PushDecoder as Write>::write` at identity format: an empty buffer is
a no-op; otherwise `PendingHeader` transitions to `Header` and the bytes
are appended to the decompressor output (the identity decompressor accepts
everything, so the deferred branch is never taken). -/
def pdWrite (s : PushDec) (chunk : List Nat) : PushDec :=
  if chunk.isEmpty then s
  else
    let s2 := if s.state = .pendingHeader then { s with state := .header } else s
    { s2 with buf := s2.buf ++ chunk, bytesWritten := s2.bytesWritten + chunk.length }

/-- `PushDecoder::write_eof` -/
def pdWriteEof (s : PushDec) : PushDec := { s with inputEof := true }

/-- One caller interaction with the push decoder. -/
inductive DecOp : Type where
  | write (chunk : List Nat)
  | writeEof
  | getEvent
deriving DecidableEq

/-- Run one operation; `get_event` results are collected (errors produce
no event but keep the mutated state, as the Rust method does). -/
def decStep (s : PushDec) (op : DecOp) : PushDec × Option DEvent :=
  match op with
  | .write c => (pdWrite s c, none)
  | .writeEof => (pdWriteEof s, none)
  | .getEvent =>
    match getEvent s with
    | (s2, .ok ev) => (s2, some ev)
    | (s2, .error _) => (s2, none)

/-- Run a sequence of operations from the given state, collecting all
emitted events. -/
def runOpsFrom (s : PushDec) : List DecOp → PushDec × List DEvent
  | [] => (s, [])
  | op :: rest =>
    match decStep s op with
    | (s2, oev) =>
      match runOpsFrom s2 rest with
      | (s3, evs) => (s3, oev.toList ++ evs)

/-- Run a sequence of operations from a fresh decoder, collecting all
emitted events. -/
def runOps (ops : List DecOp) : PushDec × List DEvent :=
  runOpsFrom pushDecNew ops

/-- Record-level stream checker written from the spec sentences behind C1:
between a `Header` (whose `Content-Length` must parse, giving the target
`t`) and the next `EndRecord`, only `BlockData` may appear and the running
total of their lengths never exceeds `t`; `EndRecord` is legal exactly
when the total equals `t`; a `Header` is legal only with no record open.
The bookkeeping state is `none` (no open record) or `some (t, emitted)`. -/
def chkEvent : Option (Nat × Nat) → DEvent → Option (Option (Nat × Nat))
  | none, .header h =>
    match contentLengthF h with
    | some len => some (some (len, 0))
    | none => none
  | some _, .header _ => none
  | some (t, s), .blockData d =>
    if s + d.length ≤ t then some (some (t, s + d.length)) else none
  | none, .blockData _ => none
  | some (t, s), .endRecord => if s = t then some none else none
  | none, .endRecord => none
  | r, _ => some r

def chkEvents : Option (Nat × Nat) → List DEvent → Option (Option (Nat × Nat))
  | r, [] => some r
  | r, e :: rest =>
    match chkEvent r e with
    | some r2 => chkEvents r2 rest
    | none => none

/-- The decoder-state/checker-state simulation relation. -/
def stInv (s : PushDec) (r : Option (Nat × Nat)) : Prop :=
  match s.state with
  | .pendingHeader => r = none
  | .header => r = none
  | .finished => r = none
  | .block => r = some (s.blockLength, s.blockPos) ∧ s.blockPos ≤ s.blockLength
  | .recordBoundary => r = some (s.blockLength, s.blockPos) ∧ s.blockPos = s.blockLength
  | .endOfSegment => r = some (s.blockLength, s.blockPos) ∧ s.blockPos = s.blockLength

theorem stInv_congr {s t : PushDec} {r : Option (Nat × Nat)}
    (h1 : t.state = s.state) (h2 : t.blockLength = s.blockLength)
    (h3 : t.blockPos = s.blockPos) (h : stInv s r) : stInv t r := by
  unfold stInv at h ⊢
  rw [h1, h2, h3]
  exact h

theorem getEvent_inv (s : PushDec) (r : Option (Nat × Nat)) (hinv : stInv s r) :
    ∃ r2, (match (getEvent s).2 with
           | .ok ev => chkEvent r ev
           | .error _ => some r) = some r2 ∧ stInv (getEvent s).1 r2 := by
  set s2 : PushDec := { s with buf := s.buf.drop s.bufOutRefLen, bufOutRefLen := 0 } with hs2
  have hinv2 : stInv s2 r := stInv_congr rfl rfl rfl hinv
  have hgd : getEvent s = getEventDispatch s2 := rfl
  rw [hgd]
  clear hgd hinv
  clear hs2
  clear_value s2
  clear s
  cases hst : s2.state with
  | pendingHeader =>
    have hr : r = none := by unfold stInv at hinv2; rw [hst] at hinv2; exact hinv2
    subst hr
    rw [show getEventDispatch s2 = (s2, .ok .ready) by unfold getEventDispatch; rw [hst]]
    exact ⟨none, by simp [chkEvent], hinv2⟩
  | finished =>
    have hr : r = none := by unfold stInv at hinv2; rw [hst] at hinv2; exact hinv2
    subst hr
    rw [show getEventDispatch s2 = (s2, .ok .finished) by unfold getEventDispatch; rw [hst]]
    exact ⟨none, by simp [chkEvent], hinv2⟩
  | header =>
    have hr : r = none := by unfold stInv at hinv2; rw [hst] at hinv2; exact hinv2
    subst hr
    have e1 : getEventDispatch s2 = processHeader s2 := by unfold getEventDispatch; rw [hst]
    rw [e1]
    cases hscan : scanHeaderDelim s2.buf with
    | none =>
      cases hpre : precheckHeader s2 with
      | some e =>
        rw [show processHeader s2 = (s2, .error e) by
          unfold processHeader; rw [hscan]; simp [hpre]]
        exact ⟨none, rfl, hinv2⟩
      | none =>
        cases hmax : checkMaxHeaderLength s2 with
        | some e =>
          rw [show processHeader s2 = (s2, .error e) by
            unfold processHeader; rw [hscan]; simp [hpre, hmax]]
          exact ⟨none, rfl, hinv2⟩
        | none =>
          rw [show processHeader s2 = (s2, .ok .wantData) by
            unfold processHeader; rw [hscan]; simp [hpre, hmax]]
          exact ⟨none, by simp [chkEvent], hinv2⟩
    | some index =>
      cases hparse : parseWarcHeader (s2.buf.take index) with
      | none =>
        rw [show processHeader s2 = (s2, .error .parseFailure) by
          unfold processHeader processDecodableHeader
          rw [hscan]
          simp [hparse]]
        exact ⟨none, rfl, hinv2⟩
      | some h =>
        cases hcl : contentLengthF h with
        | none =>
          rw [show processHeader s2 = (s2, .error .invalidContentLength) by
            unfold processHeader processDecodableHeader
            rw [hscan]
            simp [hparse, hcl]]
          exact ⟨none, rfl, hinv2⟩
        | some len =>
          rw [show processHeader s2 =
              ({ s2 with
                  buf := s2.buf.drop index,
                  decodedConsumed := s2.decodedConsumed + index,
                  blockPos := 0, blockLength := len, state := .block },
               .ok (.header h)) by
            unfold processHeader processDecodableHeader
            rw [hscan]
            simp [hparse, hcl]]
          refine ⟨some (len, 0), by simp [chkEvent, hcl], ?_⟩
          unfold stInv
          simp
  | block =>
    have hr : r = some (s2.blockLength, s2.blockPos) ∧ s2.blockPos ≤ s2.blockLength := by
      unfold stInv at hinv2; rw [hst] at hinv2; exact hinv2
    obtain ⟨hr1, hr2⟩ := hr
    subst hr1
    have e1 : getEventDispatch s2 = processBlock s2 := by unfold getEventDispatch; rw [hst]
    rw [e1]
    by_cases hrem : s2.blockLength - s2.blockPos = 0
    · rw [show processBlock s2 = ({ s2 with state := .recordBoundary }, .ok .cont) by
        unfold processBlock; rw [if_pos hrem]]
      refine ⟨some (s2.blockLength, s2.blockPos), by simp [chkEvent], ?_⟩
      unfold stInv
      simp
      omega
    · by_cases hbe : s2.buf.isEmpty
      · rw [show processBlock s2 = (s2, .ok .wantData) by
          unfold processBlock; rw [if_neg hrem, if_pos hbe]]
        exact ⟨some (s2.blockLength, s2.blockPos), by simp [chkEvent], by
          unfold stInv; rw [hst]; exact ⟨rfl, hr2⟩⟩
      · rw [show processBlock s2 =
            ({ s2 with
                blockPos := s2.blockPos +
                  min (min s2.bufOutMaxLen s2.buf.length) (s2.blockLength - s2.blockPos),
                bufOutRefLen :=
                  min (min s2.bufOutMaxLen s2.buf.length) (s2.blockLength - s2.blockPos),
                decodedConsumed := s2.decodedConsumed +
                  min (min s2.bufOutMaxLen s2.buf.length) (s2.blockLength - s2.blockPos) },
             .ok (.blockData (s2.buf.take (min (min s2.bufOutMaxLen s2.buf.length)
                (s2.blockLength - s2.blockPos))))) by
          unfold processBlock; rw [if_neg hrem, if_neg hbe]]
        refine ⟨some (s2.blockLength, s2.blockPos +
          min (min s2.bufOutMaxLen s2.buf.length) (s2.blockLength - s2.blockPos)), ?_, ?_⟩
        · have hlen : (s2.buf.take (min (min s2.bufOutMaxLen s2.buf.length)
              (s2.blockLength - s2.blockPos))).length =
              min (min s2.bufOutMaxLen s2.buf.length) (s2.blockLength - s2.blockPos) := by
            rw [List.length_take]
            omega
          simp only [chkEvent, hlen]
          rw [if_pos (by omega)]
        · unfold stInv
          simp only [hst]
          exact ⟨by simp, by omega⟩
  | recordBoundary =>
    have hr : r = some (s2.blockLength, s2.blockPos) ∧ s2.blockPos = s2.blockLength := by
      unfold stInv at hinv2; rw [hst] at hinv2; exact hinv2
    obtain ⟨hr1, hr2⟩ := hr
    subst hr1
    have e1 : getEventDispatch s2 = processRecordBoundary s2 := by
      unfold getEventDispatch; rw [hst]
    rw [e1]
    by_cases h4 : 4 ≤ s2.buf.length
    · by_cases hcrlf : s2.buf.take 4 = bs "\r\n\r\n"
      · rw [show processRecordBoundary s2 =
            ({ s2 with
                buf := s2.buf.drop 4,
                decodedConsumed := s2.decodedConsumed + 4,
                state := .endOfSegment },
             .ok .cont) by
          unfold processRecordBoundary; rw [if_pos h4, if_pos hcrlf]]
        refine ⟨some (s2.blockLength, s2.blockPos), by simp [chkEvent], ?_⟩
        unfold stInv
        simp [hr2]
      · rw [show processRecordBoundary s2 = (s2, .error .invalidRecordBoundary) by
          unfold processRecordBoundary; rw [if_pos h4, if_neg hcrlf]]
        exact ⟨some (s2.blockLength, s2.blockPos), rfl, by
          unfold stInv; rw [hst]; exact ⟨rfl, hr2⟩⟩
    · rw [show processRecordBoundary s2 = (s2, .ok .wantData) by
        unfold processRecordBoundary; rw [if_neg h4]]
      exact ⟨some (s2.blockLength, s2.blockPos), by simp [chkEvent], by
        unfold stInv; rw [hst]; exact ⟨rfl, hr2⟩⟩
  | endOfSegment =>
    have hr : r = some (s2.blockLength, s2.blockPos) ∧ s2.blockPos = s2.blockLength := by
      unfold stInv at hinv2; rw [hst] at hinv2; exact hinv2
    obtain ⟨hr1, hr2⟩ := hr
    subst hr1
    have e1 : getEventDispatch s2 = (resetForNextRecord s2, .ok .endRecord) := by
      unfold getEventDispatch processEndOfSegment; rw [hst]
    rw [e1]
    refine ⟨none, by simp [chkEvent, hr2], ?_⟩
    unfold resetForNextRecord
    by_cases hbe : ({ s2 with recordBoundaryPos := s2.decodedConsumed } : PushDec).buf.isEmpty
    · by_cases heof : ({ s2 with recordBoundaryPos := s2.decodedConsumed } : PushDec).inputEof
      · rw [if_pos hbe, if_pos heof]
        unfold stInv
        simp
      · rw [if_pos hbe, if_neg heof]
        unfold stInv
        simp
    · rw [if_neg hbe]
      unfold stInv
      simp

theorem pdWrite_inv {s : PushDec} {r : Option (Nat × Nat)} {c : List Nat}
    (h : stInv s r) : stInv (pdWrite s c) r := by
  unfold pdWrite
  by_cases hc : c.isEmpty
  · simpa [hc]
  · rw [if_neg (by simp [hc])]
    by_cases hp : s.state = .pendingHeader
    · rw [if_pos hp]
      have hr : r = none := by unfold stInv at h; rw [hp] at h; exact h
      subst hr
      unfold stInv
      simp
    · rw [if_neg hp]
      exact stInv_congr rfl rfl rfl h

def chkStep (r : Option (Nat × Nat)) : Option DEvent → Option (Option (Nat × Nat))
  | none => some r
  | some ev => chkEvent r ev

theorem decStep_inv (s : PushDec) (r : Option (Nat × Nat)) (op : DecOp)
    (h : stInv s r) :
    ∃ r2, chkStep r (decStep s op).2 = some r2 ∧ stInv (decStep s op).1 r2 := by
  cases op with
  | write c => exact ⟨r, rfl, pdWrite_inv h⟩
  | writeEof => exact ⟨r, rfl, stInv_congr rfl rfl rfl h⟩
  | getEvent =>
    obtain ⟨r2, h1, h2⟩ := getEvent_inv s r h
    cases hge : getEvent s with
    | mk s2 res =>
      rw [hge] at h1 h2
      cases res with
      | ok ev =>
        have e1 : decStep s .getEvent = (s2, some ev) := by
          unfold decStep; rw [hge]
        rw [e1]
        exact ⟨r2, h1, h2⟩
      | error e =>
        have e1 : decStep s .getEvent = (s2, none) := by
          unfold decStep; rw [hge]
        rw [e1]
        exact ⟨r2, h1, h2⟩

theorem runOpsFrom_inv (ops : List DecOp) : ∀ (s : PushDec) (r : Option (Nat × Nat)),
    stInv s r →
    ∃ rEnd, chkEvents r (runOpsFrom s ops).2 = some rEnd ∧
      stInv (runOpsFrom s ops).1 rEnd := by
  induction ops with
  | nil => intro s r h; exact ⟨r, rfl, h⟩
  | cons op rest ih =>
    intro s r h
    obtain ⟨r2, h1, h2⟩ := decStep_inv s r op h
    cases hds : decStep s op with
    | mk s2 oev =>
      rw [hds] at h1 h2
      dsimp only at h1 h2
      obtain ⟨r3, h3, h4⟩ := ih s2 r2 h2
      cases hro : runOpsFrom s2 rest with
      | mk s3 evs =>
        rw [hro] at h3 h4
        dsimp only at h3 h4
        have e1 : runOpsFrom s (op :: rest) = (s3, oev.toList ++ evs) := by
          unfold runOpsFrom; rw [hds]; simp [hro]
        rw [e1]
        refine ⟨r3, ?_, h4⟩
        cases oev with
        | none =>
          simp only [chkStep, Option.some.injEq] at h1
          subst h1
          simpa using h3
        | some ev =>
          simp only [chkStep] at h1
          show chkEvents r (ev :: evs) = some r3
          unfold chkEvents
          rw [h1]
          exact h3

/-- The two-record identity file from the decoder tests
(`src/warc/decode.rs::tests::test_reader`). -/
def twoRecordFile : List Nat :=
  bs "WARC/1.1\r\nContent-Length: 12\r\n\r\nHello world!\r\n\r\nWARC/1.1\r\nContent-Length: 0\r\n\r\n\r\n\r\n"

/-- Feed the file in one write, mark EOF, then poll twelve times. -/
def twoRecordOps : List DecOp :=
  [.getEvent, .write twoRecordFile, .writeEof] ++ List.replicate 12 .getEvent

theorem stInv_new : stInv pushDecNew none := by
  unfold stInv pushDecNew
  simp

set_option maxRecDepth 10000 in
/-- C1: for every sequence of caller interactions with the push decoder
(arbitrary `write` chunks, `write_eof`, `get_event`), the emitted events
obey the per-record discipline: a `Header` (whose `Content-Length` parses)
opens a record, only `BlockData` slices follow within it, their cumulative
length never exceeds the declared content length, and `EndRecord` occurs
exactly when the cumulative length equals the declared content length —
so the sum of `BlockData` lengths between a `Header` and its `EndRecord`
equals that record's `Content-Length`.  Moreover, on the concrete
two-record well-formed file the run emits exactly two `Header`s and two
`EndRecord`s, every opened record is closed (`chkEvents` ends with no open
record), and the decoder finishes. -/
theorem C1_push_decoder_event_discipline :
    (∀ ops : List DecOp, (chkEvents none (runOps ops).2).isSome = true) ∧
    (chkEvents none (runOps twoRecordOps).2 = some none ∧
      ((runOps twoRecordOps).2.filter DEvent.isEndRecord).length = 2 ∧
      ((runOps twoRecordOps).2.filter DEvent.isHeader).length = 2 ∧
      (runOps twoRecordOps).1.state = .finished) := by
  constructor
  · intro ops
    obtain ⟨rEnd, h1, -⟩ := runOpsFrom_inv ops pushDecNew none stInv_new
    unfold runOps
    rw [h1]
    rfl
  · decide

/-- `Decoder::read_remaining_block` (the body of `Decoder::finish_block`),
driven by `read_nonzero_into_push_decoder`: poll events until `EndRecord`;
on `WantData` read up to `BUFFER_LENGTH` (4096) bytes from the source and
write them to the push decoder, failing with the `UnexpectedEof` io error
when the source returns 0 bytes.  `Header`/`Ready`/`Finished` are
`unreachable!()` in this state and are modelled as `none`, as is fuel
exhaustion; the driver returns the final decoder state and unread input. -/
def readRemainingBlockF :
    Nat → PushDec → List Nat → Option (Except DecErr (PushDec × List Nat))
  | 0, _, _ => none
  | fuel + 1, s, input =>
    match getEvent s with
    | (_, .error e) => some (.error e)
    | (s2, .ok ev) =>
      match ev with
      | .wantData =>
        if (input.take 4096).isEmpty then some (.error .unexpectedEof)
        else readRemainingBlockF fuel (pdWrite s2 (input.take 4096)) (input.drop 4096)
      | .cont => readRemainingBlockF fuel s2 input
      | .blockData _ => readRemainingBlockF fuel s2 input
      | .endRecord => some (.ok (s2, input))
      | _ => none

/-- `Decoder::finish_block`: `set_max_buffer_len(BUFFER_LENGTH)` then the
remaining-block loop. -/
def finishBlockPull (s : PushDec) (input : List Nat) (fuel : Nat) :
    Option (Except DecErr (PushDec × List Nat)) :=
  readRemainingBlockF fuel { s with bufOutMaxLen := 4096 } input

/-- A WARC file whose only record omits the trailing `\r\n\r\n` entirely. -/
def noBoundaryFile : List Nat := bs "WARC/1.1\r\nContent-Length: 0\r\n\r\n"

/-- C7 counterexample: decoding a file whose last record omits the
trailing `\r\n\r\n` entirely fails with the io error `UnexpectedEof`, not
with `InvalidRecordBoundary`: the push decoder keeps answering `WantData`
(the boundary comparison needs four buffered bytes), and the pull
wrapper's `read_nonzero_into_push_decoder` turns the empty source into
`UnexpectedEof`. -/
theorem C7_counterexample :
    (runOps [.write noBoundaryFile, .getEvent]).2 =
      [.header ⟨bs "WARC/1.1", [(bs "Content-Length", bs "0")]⟩] ∧
    finishBlockPull (runOps [.write noBoundaryFile, .getEvent]).1 [] 5 =
      some (.error .unexpectedEof) ∧
    DecErr.unexpectedEof ≠ DecErr.invalidRecordBoundary := by decide

/-- C7 (amended): after the block, if four or more bytes are buffered and
the first four differ from `\r\n\r\n`, the decoder fails with
`InvalidRecordBoundary` (leaving its state unchanged); but when the
source is exhausted while fewer than four boundary bytes are buffered,
the pull `finish_block` fails with the io error `UnexpectedEof` instead —
a record that omits the boundary entirely is reported as `UnexpectedEof`,
not `InvalidRecordBoundary`. -/
theorem C7_invalid_record_boundary :
    (∀ s : PushDec, 4 ≤ s.buf.length → s.buf.take 4 ≠ bs "\r\n\r\n" →
      (processRecordBoundary s).2 = .error .invalidRecordBoundary ∧
      (processRecordBoundary s).1 = s) ∧
    (∀ (s : PushDec) (fuel : Nat), s.state = .recordBoundary → s.bufOutRefLen = 0 →
      s.buf.length < 4 →
      finishBlockPull s [] (fuel + 1) = some (.error .unexpectedEof)) := by
  constructor
  · intro s h4 hne
    unfold processRecordBoundary
    rw [if_pos h4, if_neg hne]
    exact ⟨rfl, rfl⟩
  · intro s fuel hst href hlen
    obtain ⟨st, buf, ie, bw, dc, rbp, bl, bp, bm, br⟩ := s
    simp only at hst href hlen
    subst hst
    subst href
    have h4 : ¬(4 ≤ buf.length) := by omega
    simp [finishBlockPull, readRemainingBlockF, getEvent, getEventDispatch,
      processRecordBoundary, h4]

/-- Witness for `C7_invalid_record_boundary`: a mismatching 4-byte
boundary `XXXX`, and an exhausted source with only `\r\n` buffered. -/
theorem C7_invalid_record_boundary_witness :
    (processRecordBoundary ⟨.recordBoundary, bs "XXXX", false, 0, 0, 0, 0, 0, 4096, 0⟩).2 =
      .error .invalidRecordBoundary ∧
    finishBlockPull ⟨.recordBoundary, bs "\r\n", false, 0, 0, 0, 0, 0, 4096, 0⟩ [] 1 =
      some (.error .unexpectedEof) := by
  constructor
  · exact (C7_invalid_record_boundary.1 _ (by decide) (by decide)).1
  · exact C7_invalid_record_boundary.2 _ 0 (by decide) (by decide) (by decide)

theorem twc_cons (p : Nat → Bool) (b : Nat) (l : List Nat) :
    takeWhileCount p (b :: l) = if p b then takeWhileCount p l + 1 else 0 := by
  simp only [takeWhileCount, List.takeWhile_cons]
  split <;> simp

theorem twc_append_all {p : Nat → Bool} {x : List Nat} (y : List Nat)
    (h : x.all p = true) :
    takeWhileCount p (x ++ y) = x.length + takeWhileCount p y := by
  induction x with
  | nil => simp
  | cons a t ih =>
    simp only [List.all_cons, Bool.and_eq_true] at h
    simp only [List.cons_append, twc_cons, h.1, if_true, ih h.2, List.length_cons]
    omega

theorem twc_replicate_append {p : Nat → Bool} {a : Nat} (k : Nat) (y : List Nat)
    (h : p a = true) :
    takeWhileCount p (List.replicate k a ++ y) = k + takeWhileCount p y := by
  have hall : (List.replicate k a).all p = true := by
    rw [List.all_eq_true]
    intro x hx
    rw [List.eq_of_mem_replicate hx]
    exact h
  rw [twc_append_all y hall, List.length_replicate]

theorem drop_append_of_length {x : List Nat} (y : List Nat) {n : Nat}
    (h : x.length = n) : (x ++ y).drop n = y := by
  subst h
  exact List.drop_left x y

theorem take_append_of_length {x : List Nat} (y : List Nat) {n : Nat}
    (h : x.length = n) : (x ++ y).take n = x := by
  subst h
  exact List.take_left x y

/-- One non-empty line (all bytes outside CR/LF) followed by CRLF advances
the header-delimiter scan by the line length plus two. -/
theorem scanF_line {x y : List Nat} {fuel : Nat}
    (hall : x.all (fun b => !(b == 13 || b == 10)) = true) (hne : x ≠ []) :
    scanHeaderDelimF (fuel + 1) (x ++ 13 :: 10 :: y) =
      (scanHeaderDelimF fuel y).map (· + x.length + 2) := by
  have hrun : takeWhileCount (fun b => !(b == 13 || b == 10)) (x ++ 13 :: 10 :: y) =
      x.length := by
    rw [twc_append_all _ hall, twc_cons]
    simp
  have hrunpos : ¬(x.length = 0) := by
    cases x with
    | nil => exact absurd rfl hne
    | cons a t => simp
  show (if takeWhileCount (fun b => !(b == 13 || b == 10)) (x ++ 13 :: 10 :: y) = 0
    then lineEndingLen (x ++ 13 :: 10 :: y)
    else
      match lineEndingLen ((x ++ 13 :: 10 :: y).drop
          (takeWhileCount (fun b => !(b == 13 || b == 10)) (x ++ 13 :: 10 :: y))) with
      | some n => (scanHeaderDelimF fuel ((x ++ 13 :: 10 :: y).drop
          (takeWhileCount (fun b => !(b == 13 || b == 10)) (x ++ 13 :: 10 :: y) + n))).map
          (· + takeWhileCount (fun b => !(b == 13 || b == 10)) (x ++ 13 :: 10 :: y) + n)
      | none => none) = (scanHeaderDelimF fuel y).map (· + x.length + 2)
  rw [hrun, if_neg hrunpos, drop_append_of_length (13 :: 10 :: y) rfl]
  show (match lineEndingLen (13 :: 10 :: y) with
    | some n => (scanHeaderDelimF fuel ((x ++ 13 :: 10 :: y).drop (x.length + n))).map
        (· + x.length + n)
    | none => none) = _
  rw [show lineEndingLen (13 :: 10 :: y) = some 2 from rfl]
  have hdrop : (x ++ 13 :: 10 :: y).drop (x.length + 2) = y := by
    have h1 : (x ++ 13 :: 10 :: y).drop (x.length + 2) =
        ((x ++ 13 :: 10 :: y).drop x.length).drop 2 := by
      rw [List.drop_drop, Nat.add_comm]
    rw [h1, drop_append_of_length (13 :: 10 :: y) rfl]
    rfl
  show (scanHeaderDelimF fuel ((x ++ 13 :: 10 :: y).drop (x.length + 2))).map
      (· + x.length + 2) = _
  rw [hdrop]

/-- The empty line terminates the scan with two consumed bytes. -/
theorem scanF_empty (y : List Nat) (fuel : Nat) :
    scanHeaderDelimF (fuel + 1) (13 :: 10 :: y) = some 2 := by
  show (if takeWhileCount (fun b => !(b == 13 || b == 10)) (13 :: 10 :: y) = 0
    then lineEndingLen (13 :: 10 :: y)
    else
      match lineEndingLen ((13 :: 10 :: y).drop
          (takeWhileCount (fun b => !(b == 13 || b == 10)) (13 :: 10 :: y))) with
      | some n => (scanHeaderDelimF fuel ((13 :: 10 :: y).drop
          (takeWhileCount (fun b => !(b == 13 || b == 10)) (13 :: 10 :: y) + n))).map
          (· + takeWhileCount (fun b => !(b == 13 || b == 10)) (13 :: 10 :: y) + n)
      | none => none) = some 2
  rw [if_pos (by rw [twc_cons]; simp)]
  rfl

/-- A well-formed header of adjustable size: a version line `WARC/`
followed by `k` ASCII digits `1`, then `Content-Length: 0` and the
terminating empty line.  Total size `28 + k` bytes including the final
empty line. -/
def bigHeader (k : Nat) : List Nat :=
  (bs "WARC/" ++ List.replicate k 49) ++ 13 :: 10 ::
    (bs "Content-Length: 0" ++ 13 :: 10 :: 13 :: 10 :: [])

/-- The header value `bigHeader k` parses to. -/
def bigHdr (k : Nat) : WarcHeader :=
  ⟨bs "WARC/" ++ List.replicate k 49, [(bs "Content-Length", bs "0")]⟩

theorem versionLine_length (k : Nat) : (bs "WARC/" ++ List.replicate k 49).length = 5 + k := by
  have l1 : (bs "WARC/").length = 5 := by decide
  simp [List.length_append, l1]

theorem bigHeader_length (k : Nat) : (bigHeader k).length = 28 + k := by
  have l1 : (bs "WARC/").length = 5 := by decide
  have l2 : (bs "Content-Length: 0").length = 17 := by decide
  simp [bigHeader, List.length_append, l1, l2]
  omega

theorem versionLine_all (k : Nat) : (bs "WARC/" ++ List.replicate k 49).all
    (fun b => !(b == 13 || b == 10)) = true := by
  rw [List.all_append, Bool.and_eq_true]
  refine And.intro (by decide) ?_
  rw [List.all_eq_true]
  intro b hb
  rw [List.eq_of_mem_replicate hb]
  decide

theorem versionLine_ne (k : Nat) : bs "WARC/" ++ List.replicate k 49 ≠ [] := by
  simp [bs]

theorem scanF_bigHeader (k fuel : Nat) :
    scanHeaderDelimF (fuel + 3) (bigHeader k) = some (28 + k) := by
  rw [bigHeader]
  rw [show fuel + 3 = (fuel + 2) + 1 from rfl]
  rw [scanF_line (versionLine_all k) (versionLine_ne k)]
  rw [show fuel + 2 = (fuel + 1) + 1 from rfl]
  rw [scanF_line (by decide) (by decide)]
  rw [scanF_empty]
  simp only [Option.map]
  rw [versionLine_length]
  have l2 : (bs "Content-Length: 0").length = 17 := by decide
  rw [l2]
  congr 1
  omega

theorem scan_bigHeader (k : Nat) : scanHeaderDelim (bigHeader k) = some (28 + k) := by
  unfold scanHeaderDelim
  rw [bigHeader_length]
  rw [show 28 + k + 1 = (26 + k) + 3 by omega]
  exact scanF_bigHeader k (26 + k)

theorem bigHeader_cons (k : Nat) : bigHeader k =
    87 :: 65 :: 82 :: 67 :: 47 :: (List.replicate k 49 ++
      (13 :: 10 :: (bs "Content-Length: 0" ++ 13 :: 10 :: 13 :: 10 :: []))) := by
  rw [bigHeader, show bs "WARC/" = [87, 65, 82, 67, 47] from by decide]
  simp [List.append_assoc]

theorem versionLen_bigHeader (k : Nat) : versionLen (bigHeader k) = some (5 + k) := by
  have hpre : (bs "WARC/").isPrefixOf (bigHeader k) = true := by
    rw [bigHeader_cons, show bs "WARC/" = [87, 65, 82, 67, 47] from by decide]
    simp [List.isPrefixOf]
  have hdrop5 : (bigHeader k).drop 5 = List.replicate k 49 ++
      (13 :: 10 :: (bs "Content-Length: 0" ++ 13 :: 10 :: 13 :: 10 :: [])) := by
    rw [bigHeader_cons]
    rfl
  unfold versionLen
  rw [if_pos hpre, hdrop5]
  rw [twc_replicate_append k _ (by decide), twc_cons]
  simp [isDigitB]

theorem versionLineLen_bigHeader (k : Nat) :
    versionLineLen (bigHeader k) = some (5 + k, 5 + k + 2) := by
  have hdropVL : (bigHeader k).drop (5 + k) =
      13 :: 10 :: (bs "Content-Length: 0" ++ 13 :: 10 :: 13 :: 10 :: []) := by
    rw [bigHeader, drop_append_of_length _ (versionLine_length k)]
  unfold versionLineLen
  rw [versionLen_bigHeader]
  show (match lineEndingLen ((bigHeader k).drop (5 + k)) with
    | some n => some (5 + k, 5 + k + n)
    | none => none) = some (5 + k, 5 + k + 2)
  rw [hdropVL]
  rfl

theorem parseWarcHeader_eq {input : List Nat} {v total : Nat}
    (h : versionLineLen input = some (v, total)) :
    parseWarcHeader input = some ⟨input.take v,
      (fieldPairsP (input.drop total)).foldl
        (fun m nv => fmInsert m nv.1 (removeLineFolding nv.2)) []⟩ := by
  unfold parseWarcHeader
  rw [h]

theorem parse_bigHeader (k : Nat) : parseWarcHeader (bigHeader k) = some (bigHdr k) := by
  rw [parseWarcHeader_eq (versionLineLen_bigHeader k)]
  have htake : (bigHeader k).take (5 + k) = bs "WARC/" ++ List.replicate k 49 := by
    rw [bigHeader, take_append_of_length _ (versionLine_length k)]
  have hdropT : (bigHeader k).drop (5 + k + 2) =
      bs "Content-Length: 0" ++ 13 :: 10 :: 13 :: 10 :: [] := by
    have h1 : (bigHeader k).drop (5 + k + 2) = ((bigHeader k).drop (5 + k)).drop 2 := by
      rw [List.drop_drop, Nat.add_comm]
    rw [h1, bigHeader, drop_append_of_length _ (versionLine_length k)]
    rfl
  rw [htake, hdropT]
  rw [show List.foldl (fun m nv => fmInsert m nv.1 (removeLineFolding nv.2)) []
      (fieldPairsP (bs "Content-Length: 0" ++ 13 :: 10 :: 13 :: 10 :: [])) =
      [(bs "Content-Length", bs "0")] from by decide]
  rfl

/-- A buffer containing no CR and no LF at all has no header delimiter. -/
theorem scanF_noLF {x : List Nat} (fuel : Nat)
    (hall : x.all (fun b => !(b == 13 || b == 10)) = true) (hne : x ≠ []) :
    scanHeaderDelimF (fuel + 1) x = none := by
  have hrun : takeWhileCount (fun b => !(b == 13 || b == 10)) x = x.length := by
    have h1 := twc_append_all (p := fun b => !(b == 13 || b == 10)) [] hall
    simpa [takeWhileCount] using h1
  have hrunpos : ¬(x.length = 0) := by
    cases x with
    | nil => exact absurd rfl hne
    | cons a t => simp
  show (if takeWhileCount (fun b => !(b == 13 || b == 10)) x = 0
    then lineEndingLen x
    else
      match lineEndingLen (x.drop (takeWhileCount (fun b => !(b == 13 || b == 10)) x)) with
      | some n => (scanHeaderDelimF fuel (x.drop
          (takeWhileCount (fun b => !(b == 13 || b == 10)) x + n))).map
          (· + takeWhileCount (fun b => !(b == 13 || b == 10)) x + n)
      | none => none) = none
  rw [hrun, if_neg hrunpos, List.drop_length]
  rfl

theorem scan_noEmptyLine (k : Nat) :
    scanHeaderDelim (bs "WARC/" ++ List.replicate k 49) = none := by
  unfold scanHeaderDelim
  rw [versionLine_length]
  exact scanF_noLF (5 + k) (versionLine_all k) (versionLine_ne k)

/-- Writing a first nonempty chunk into a fresh decoder moves it to the
`Header` state with the chunk buffered. -/
theorem pdWrite_new {chunk : List Nat} (h : chunk.isEmpty = false) :
    pdWrite pushDecNew chunk =
      ⟨.header, chunk, false, chunk.length, 0, 0, 0, 0, 4096, 0⟩ := by
  unfold pdWrite
  rw [h]
  simp [pushDecNew]

/-- The decoder state after the fresh decoder has buffered `bigHeader k`. -/
def hdrState (k : Nat) : PushDec :=
  ⟨.header, bigHeader k, false, (bigHeader k).length, 0, 0, 0, 0, 4096, 0⟩

theorem pdWrite_bigHeader (k : Nat) :
    pdWrite pushDecNew (bigHeader k) = hdrState k := by
  have hne : (bigHeader k).isEmpty = false := by
    rw [bigHeader_cons]
    rfl
  rw [pdWrite_new hne]
  rfl

theorem getEvent_hdrState (k : Nat) :
    (getEvent (hdrState k)).2 = Except.ok (DEvent.header (bigHdr k)) := by
  have h1 : getEvent (hdrState k) = processHeader (hdrState k) := rfl
  rw [h1]
  unfold processHeader
  rw [show (hdrState k).buf = bigHeader k from rfl, scan_bigHeader]
  show (processDecodableHeader (hdrState k) (28 + k)).2 = Except.ok (DEvent.header (bigHdr k))
  unfold processDecodableHeader
  rw [show (hdrState k).buf = bigHeader k from rfl]
  rw [show (bigHeader k).take (28 + k) = bigHeader k from by
    rw [← bigHeader_length k]; simp]
  rw [parse_bigHeader]
  rfl

/-- A complete header of any size is accepted by `get_event`: the
delimiter scan runs before the length check. -/
theorem getEvent_bigHeader (k : Nat) :
    (getEvent (pdWrite pushDecNew (bigHeader k))).2 =
      Except.ok (DEvent.header (bigHdr k)) := by
  rw [pdWrite_bigHeader]
  exact getEvent_hdrState k

/-- `process_decodable_header` reports only parse failures, never
`HeaderTooBig`. -/
theorem processDecodableHeader_ne_tooBig (s : PushDec) (i : Nat) :
    (processDecodableHeader s i).2 ≠ Except.error DecErr.headerTooBig := by
  unfold processDecodableHeader
  split
  · simp
  · split
    · simp
    · simp

/-- `precheck_header` reports only compression/unknown-format errors,
never `HeaderTooBig`. -/
theorem precheckHeader_ne_tooBig {s : PushDec} {e : DecErr}
    (h : precheckHeader s = some e) : e ≠ DecErr.headerTooBig := by
  unfold precheckHeader at h
  split at h
  · exact Option.noConfusion h
  · injection h with h
    subst h
    decide
  · injection h with h
    subst h
    decide
  · exact Option.noConfusion h

/-- Characterization of `HeaderTooBig`: `process_header` fails with it
exactly when the buffered bytes hold no complete header delimiter yet,
the buffer prefix still looks like a (possible) WARC header, and more
than `MAX_HEADER_LENGTH = 32768` bytes are buffered. -/
theorem processHeader_tooBig_iff (s : PushDec) :
    (processHeader s).2 = Except.error DecErr.headerTooBig ↔
      scanHeaderDelim s.buf = none ∧ precheckHeader s = none ∧
        32768 < s.buf.length := by
  cases hscan : scanHeaderDelim s.buf with
  | some i =>
    rw [show processHeader s = processDecodableHeader s i from by
      unfold processHeader; rw [hscan]]
    constructor
    · intro h
      exact absurd h (processDecodableHeader_ne_tooBig s i)
    · rintro ⟨h1, -, -⟩
      exact Option.noConfusion h1
  | none =>
    cases hpre : precheckHeader s with
    | some e =>
      rw [show processHeader s = (s, Except.error e) from by
        unfold processHeader; rw [hscan, hpre]]
      constructor
      · intro h
        dsimp only at h
        injection h with h
        exact absurd h (precheckHeader_ne_tooBig hpre)
      · rintro ⟨-, h2, -⟩
        exact Option.noConfusion h2
    | none =>
      by_cases hlen : 32768 < s.buf.length
      · rw [show processHeader s = (s, Except.error DecErr.headerTooBig) from by
          unfold processHeader checkMaxHeaderLength
          rw [hscan, hpre, if_pos hlen]]
        constructor
        · intro _
          exact ⟨rfl, rfl, hlen⟩
        · intro _
          rfl
      · rw [show processHeader s = (s, Except.ok DEvent.wantData) from by
          unfold processHeader checkMaxHeaderLength
          rw [hscan, hpre, if_neg hlen]]
        constructor
        · intro h
          dsimp only at h
          exact Except.noConfusion h
        · rintro ⟨-, -, h3⟩
          exact absurd h3 hlen

/-- The decoder state after the fresh decoder has buffered an incomplete
header: `WARC/` followed by `k` digits and no line ending. -/
def vlState (k : Nat) : PushDec :=
  ⟨.header, bs "WARC/" ++ List.replicate k 49, false,
   (bs "WARC/" ++ List.replicate k 49).length, 0, 0, 0, 0, 4096, 0⟩

theorem pdWrite_vl (k : Nat) :
    pdWrite pushDecNew (bs "WARC/" ++ List.replicate k 49) = vlState k := by
  have hne : (bs "WARC/" ++ List.replicate k 49).isEmpty = false := by
    rw [show bs "WARC/" = [87, 65, 82, 67, 47] from by decide]
    rfl
  rw [pdWrite_new hne]
  rfl

theorem precheck_vl (k : Nat) : precheckHeader (vlState k) = none := by
  have hpre : (bs "WARC/").isPrefixOf (bs "WARC/" ++ List.replicate k 49) = true := by
    rw [show bs "WARC/" = [87, 65, 82, 67, 47] from by decide]
    simp [List.isPrefixOf]
  unfold precheckHeader detectHeader
  rw [show (vlState k).buf = bs "WARC/" ++ List.replicate k 49 from rfl, hpre]
  rfl

/-- An oversized buffered header with no delimiter yet fails with
`HeaderTooBig` on `get_event`. -/
theorem getEvent_vl_tooBig (k : Nat) (hk : 32768 < 5 + k) :
    (getEvent (pdWrite pushDecNew (bs "WARC/" ++ List.replicate k 49))).2 =
      Except.error DecErr.headerTooBig := by
  rw [pdWrite_vl]
  rw [show getEvent (vlState k) = processHeader (vlState k) from rfl]
  refine (processHeader_tooBig_iff (vlState k)).mpr ⟨scan_noEmptyLine k, precheck_vl k, ?_⟩
  rw [show (vlState k).buf = bs "WARC/" ++ List.replicate k 49 from rfl,
      versionLine_length]
  exact hk

/-- Up to `MAX_HEADER_LENGTH` buffered bytes without a delimiter the
decoder still asks for more data instead of failing. -/
theorem getEvent_vl_wantData (k : Nat) (hk : ¬ 32768 < 5 + k) :
    (getEvent (pdWrite pushDecNew (bs "WARC/" ++ List.replicate k 49))).2 =
      Except.ok DEvent.wantData := by
  rw [pdWrite_vl]
  rw [show getEvent (vlState k) = processHeader (vlState k) from rfl]
  have hs : scanHeaderDelim (vlState k).buf = none := scan_noEmptyLine k
  unfold processHeader checkMaxHeaderLength
  rw [hs, precheck_vl, if_neg (show ¬((vlState k).buf.length > 32768) from by
    rw [show (vlState k).buf = bs "WARC/" ++ List.replicate k 49 from rfl,
        versionLine_length]
    exact hk)]

/-- **C6 counterexample**: a complete, well-formed header of exactly
32769 bytes (one byte over `MAX_HEADER_LENGTH`) does NOT fail with
`HeaderTooBig`: the push decoder parses it and emits its `Header` event,
because the delimiter scan runs before the length check and the complete
header is already buffered. -/
theorem C6_counterexample :
    (bigHeader 32741).length = 32769 ∧
    (getEvent (pdWrite pushDecNew (bigHeader 32741))).2 =
      Except.ok (DEvent.header (bigHdr 32741)) := by
  constructor
  · rw [bigHeader_length]
  · exact getEvent_bigHeader 32741

/-- **C6** (amended): header decoding fails with `HeaderTooBig` exactly
when the buffered bytes hold no complete header delimiter, the buffer
still prechecks as a possible WARC header, and more than 32768 bytes are
buffered.  The total size of a complete header is irrelevant: a complete
header of any size `28 + k` — in particular 32768 and 32769 bytes — is
parsed successfully.  The 32768/32769 boundary separates outcomes only
for buffers with no delimiter yet: 32768 delimiter-free bytes yield
`WantData`, 32769 yield `HeaderTooBig`. -/
theorem C6_header_too_big_discipline :
    (∀ s : PushDec, (processHeader s).2 = Except.error DecErr.headerTooBig ↔
      scanHeaderDelim s.buf = none ∧ precheckHeader s = none ∧
        32768 < s.buf.length) ∧
    (∀ k : Nat, (bigHeader k).length = 28 + k ∧
      (getEvent (pdWrite pushDecNew (bigHeader k))).2 =
        Except.ok (DEvent.header (bigHdr k))) ∧
    ((bs "WARC/" ++ List.replicate 32763 49).length = 32768 ∧
      (getEvent (pdWrite pushDecNew (bs "WARC/" ++ List.replicate 32763 49))).2 =
        Except.ok DEvent.wantData) ∧
    ((bs "WARC/" ++ List.replicate 32764 49).length = 32769 ∧
      (getEvent (pdWrite pushDecNew (bs "WARC/" ++ List.replicate 32764 49))).2 =
        Except.error DecErr.headerTooBig) := by
  refine ⟨processHeader_tooBig_iff, fun k => ⟨bigHeader_length k, getEvent_bigHeader k⟩,
    ⟨?_, getEvent_vl_wantData 32763 (by decide)⟩,
    ⟨?_, getEvent_vl_tooBig 32764 (by decide)⟩⟩
  · rw [versionLine_length]
  · rw [versionLine_length]

/-- `src/digest.rs::AlgorithmName` -/
inductive AlgorithmName : Type where
  | crc32
  | crc32c
  | xxh3
  | md5
  | sha1
  | sha256
  | sha512
  | sha3_256
  | sha3_512
  | blake2s
  | blake3
deriving DecidableEq

/-- `AlgorithmName::as_str` -/
def asStr : AlgorithmName → List Nat
  | .crc32 => bs "crc32"
  | .crc32c => bs "crc32c"
  | .xxh3 => bs "xxh3"
  | .md5 => bs "md5"
  | .sha1 => bs "sha1"
  | .sha256 => bs "sha256"
  | .sha512 => bs "sha512"
  | .sha3_256 => bs "sha3-256"
  | .sha3_512 => bs "sha3-512"
  | .blake2s => bs "blake2s"
  | .blake3 => bs "blake3"

/-- `AlgorithmName::output_len` -/
def outputLen : AlgorithmName → Nat
  | .crc32 => 4
  | .crc32c => 4
  | .xxh3 => 8
  | .md5 => 16
  | .sha1 => 20
  | .sha256 => 32
  | .sha512 => 64
  | .sha3_256 => 32
  | .sha3_512 => 64
  | .blake2s => 32
  | .blake3 => 32

/-- `remove_compatibility_label` -/
def removeCompatibilityLabel (label : List Nat) : List Nat :=
  if label = bs "sha-1" then bs "sha1"
  else if label = bs "sha-224" then bs "sha224"
  else if label = bs "sha-256" then bs "sha256"
  else if label = bs "sha-384" then bs "sha384"
  else if label = bs "sha-512" then bs "sha512"
  else label

/-- `impl FromStr for AlgorithmName`: lowercase, strip the compatibility
label, then match the eleven fixed names. -/
def algFromStr (s : List Nat) : Option AlgorithmName :=
  if removeCompatibilityLabel (s.map lowerB) = bs "crc32" then some .crc32
  else if removeCompatibilityLabel (s.map lowerB) = bs "crc32c" then some .crc32c
  else if removeCompatibilityLabel (s.map lowerB) = bs "xxh3" then some .xxh3
  else if removeCompatibilityLabel (s.map lowerB) = bs "md5" then some .md5
  else if removeCompatibilityLabel (s.map lowerB) = bs "sha1" then some .sha1
  else if removeCompatibilityLabel (s.map lowerB) = bs "sha256" then some .sha256
  else if removeCompatibilityLabel (s.map lowerB) = bs "sha512" then some .sha512
  else if removeCompatibilityLabel (s.map lowerB) = bs "sha3-256" then some .sha3_256
  else if removeCompatibilityLabel (s.map lowerB) = bs "sha3-512" then some .sha3_512
  else if removeCompatibilityLabel (s.map lowerB) = bs "blake2s" then some .blake2s
  else if removeCompatibilityLabel (s.map lowerB) = bs "blake3" then some .blake3
  else none

/-- one `HEXLOWER_PERMISSIVE` symbol (digits, `a`-`f`, `A`-`F`). -/
def hexDigitVal (b : Nat) : Option Nat :=
  if 48 ≤ b ∧ b ≤ 57 then some (b - 48)
  else if 97 ≤ b ∧ b ≤ 102 then some (b - 87)
  else if 65 ≤ b ∧ b ≤ 70 then some (b - 55)
  else none

def mapHex : List Nat → Option (List Nat)
  | [] => some []
  | a :: r =>
    match hexDigitVal a with
    | none => none
    | some v => (mapHex r).map (fun vs => v :: vs)

def nibblePairs : List Nat → List Nat
  | a :: b :: r => (16 * a + b) :: nibblePairs r
  | _ => []

/-- `HEXLOWER_PERMISSIVE.decode`: an even number of hex digits of either
case. -/
def hexDecode (l : List Nat) : Option (List Nat) :=
  if l.length % 2 = 0 then (mapHex l).map nibblePairs else none

/-- `BASE32_NOPAD.decode_len` with `unwrap_or_default`: `0` on the
invalid input lengths `1, 3, 6 (mod 8)`. -/
def b32DecodeLen (L : Nat) : Nat :=
  if L % 8 = 1 ∨ L % 8 = 3 ∨ L % 8 = 6 then 0 else 5 * L / 8

/-- `HEXLOWER_PERMISSIVE.decode_len` with `unwrap_or_default`. -/
def hexDecodeLen (L : Nat) : Nat := if L % 2 = 0 then L / 2 else 0

/-- one RFC 4648 base32 symbol (`A`-`Z`, `2`-`7`). -/
def b32DigitVal (b : Nat) : Option Nat :=
  if 65 ≤ b ∧ b ≤ 90 then some (b - 65)
  else if 50 ≤ b ∧ b ≤ 55 then some (b - 24)
  else none

def mapB32 : List Nat → Option (List Nat)
  | [] => some []
  | a :: r =>
    match b32DigitVal a with
    | none => none
    | some v => (mapB32 r).map (fun vs => v :: vs)

/-- big-endian byte expansion of `n` into `k` bytes. -/
def bytesBE (n k : Nat) : List Nat :=
  (List.range k).map (fun i => n / 2 ^ (8 * (k - 1 - i)) % 256)

/-- `BASE32_NOPAD.decode`: valid length, valid symbols, zero trailing
bits (data-encoding rejects nonzero trailing bits). -/
def b32Decode (l : List Nat) : Option (List Nat) :=
  if l.length % 8 = 1 ∨ l.length % 8 = 3 ∨ l.length % 8 = 6 then none
  else
    match mapB32 l with
    | none => none
    | some vs =>
      if (vs.foldl (fun a v => a * 32 + v) 0) %
          2 ^ (5 * l.length - 8 * (5 * l.length / 8)) = 0
      then some (bytesBE ((vs.foldl (fun a v => a * 32 + v) 0) /
          2 ^ (5 * l.length - 8 * (5 * l.length / 8))) (5 * l.length / 8))
      else none

/-- hex-lower symbol of a nibble. -/
def hexChar (v : Nat) : Nat := if v < 10 then 48 + v else 87 + v

/-- `HEXLOWER.encode` -/
def hexEncode (bytes : List Nat) : List Nat :=
  (bytes.map (fun b => [hexChar (b / 16), hexChar (b % 16)])).join

/-- RFC 4648 base32 symbol of a 5-bit value. -/
def b32Char (v : Nat) : Nat := if v < 26 then 65 + v else 24 + v

/-- `BASE32.encode` (with `=` padding to a multiple of eight symbols). -/
def b32Encode (bytes : List Nat) : List Nat :=
  (List.range ((bytes.length * 8 + 4) / 5)).map (fun i =>
    b32Char ((bytes.foldl (fun a b => a * 256 + b) 0) *
      2 ^ (5 * ((bytes.length * 8 + 4) / 5) - 8 * bytes.length) /
      32 ^ ((bytes.length * 8 + 4) / 5 - 1 - i) % 32)) ++
  List.replicate ((8 - (bytes.length * 8 + 4) / 5 % 8) % 8) 61

/-- `str::trim_end_matches('=')` -/
def trimPad (l : List Nat) : List Nat :=
  (l.reverse.dropWhile (fun b => b == 61)).reverse

/-- `str::ends_with('=')` -/
def endsPad (l : List Nat) : Bool := l.getLast? == some 61

/-- `decode_value`: choose base32 or hex by comparing the expected output
length against both decoded lengths of the `=`-trimmed input; base32
decodes the uppercased trimmed input, hex decodes the raw input. -/
def decodeValue (expected : Nat) (value : List Nat) : Option (List Nat) :=
  if expected = b32DecodeLen (trimPad value).length ∧
      expected = hexDecodeLen (trimPad value).length then
    if endsPad value then b32Decode ((trimPad value).map upperB)
    else hexDecode value
  else if expected = b32DecodeLen (trimPad value).length then
    b32Decode ((trimPad value).map upperB)
  else hexDecode value

/-- `str::split_once(':')` -/
def splitColon : List Nat → Option (List Nat × List Nat)
  | [] => none
  | b :: r =>
    if b = 58 then some ([], r)
    else (splitColon r).map (fun p => (b :: p.1, p.2))

/-- `impl FromStr for Digest`: a digest value is the pair of its
algorithm and raw bytes.  `split_once(':').unwrap_or((s, ""))`. -/
def digestFromStr (s : List Nat) : Option (AlgorithmName × List Nat) :=
  match algFromStr ((splitColon s).getD (s, [])).1 with
  | none => none
  | some alg =>
    (decodeValue (outputLen alg) ((splitColon s).getD (s, [])).2).map
      (fun v => (alg, v))

/-- `impl Display for Digest`: base32 for sha1, hex-lower otherwise. -/
def digestToString (d : AlgorithmName × List Nat) : List Nat :=
  match d.1 with
  | .sha1 => asStr d.1 ++ 58 :: b32Encode d.2
  | _ => asStr d.1 ++ 58 :: hexEncode d.2

theorem lowerB_eq_58 {x : Nat} : lowerB x = 58 ↔ x = 58 := by
  unfold lowerB
  split <;> omega

theorem lowerB_eq_61 {x : Nat} : lowerB x = 61 ↔ x = 61 := by
  unfold lowerB
  split <;> omega

theorem hexDigitVal_lowerB (x : Nat) : hexDigitVal (lowerB x) = hexDigitVal x := by
  unfold lowerB hexDigitVal
  split_ifs <;> first
    | rfl
    | omega
    | (simp only [Option.some.injEq]; omega)

theorem upperB_lowerB (x : Nat) : upperB (lowerB x) = upperB x := by
  unfold lowerB upperB
  split_ifs <;> omega

theorem lowerB_61 : lowerB 61 = 61 := by decide

/-- `split_once(':')` matched against a case-variant input. -/
theorem splitColon_icase {s1 s2 : List Nat} (h : s1.map lowerB = s2.map lowerB) :
    (splitColon s1 = none ∧ splitColon s2 = none) ∨
    ∃ a1 b1 a2 b2, splitColon s1 = some (a1, b1) ∧ splitColon s2 = some (a2, b2) ∧
      a1.map lowerB = a2.map lowerB ∧ b1.map lowerB = b2.map lowerB := by
  induction s1 generalizing s2 with
  | nil =>
    cases s2 with
    | nil => exact Or.inl ⟨rfl, rfl⟩
    | cons c2 r2 => simp at h
  | cons c1 r1 ih =>
    cases s2 with
    | nil => simp at h
    | cons c2 r2 =>
      simp only [List.map_cons, List.cons.injEq] at h
      obtain ⟨hc, hr⟩ := h
      by_cases h58 : c1 = 58
      · have h58b : c2 = 58 := by
          rw [← lowerB_eq_58, ← hc, h58]
          decide
        refine Or.inr ⟨[], r1, [], r2, ?_, ?_, rfl, hr⟩
        · unfold splitColon
          rw [if_pos h58]
        · unfold splitColon
          rw [if_pos h58b]
      · have h58b : c2 ≠ 58 := by
          intro hcon
          apply h58
          rw [← lowerB_eq_58, hc, hcon]
          decide
        rcases ih hr with ⟨hn1, hn2⟩ | ⟨a1, b1, a2, b2, hs1, hs2, ha, hb⟩
        · refine Or.inl ⟨?_, ?_⟩
          · unfold splitColon
            rw [if_neg h58, hn1]
            rfl
          · unfold splitColon
            rw [if_neg h58b, hn2]
            rfl
        · refine Or.inr ⟨c1 :: a1, b1, c2 :: a2, b2, ?_, ?_, ?_, hb⟩
          · unfold splitColon
            rw [if_neg h58, hs1]
            rfl
          · unfold splitColon
            rw [if_neg h58b, hs2]
            rfl
          · simp only [List.map_cons, hc, ha]

/-- `dropWhile` of `=`-padding against a case-variant input. -/
theorem dropPad_icase {l1 l2 : List Nat} (h : l1.map lowerB = l2.map lowerB) :
    (l1.dropWhile (fun b => b == 61)).map lowerB =
      (l2.dropWhile (fun b => b == 61)).map lowerB := by
  induction l1 generalizing l2 with
  | nil =>
    cases l2 with
    | nil => rfl
    | cons c2 r2 => simp at h
  | cons c1 r1 ih =>
    cases l2 with
    | nil => simp at h
    | cons c2 r2 =>
      simp only [List.map_cons, List.cons.injEq] at h
      obtain ⟨hc, hr⟩ := h
      rw [List.dropWhile_cons, List.dropWhile_cons]
      by_cases h61 : c1 = 61
      · have h61b : c2 = 61 := by
          rw [← lowerB_eq_61, ← hc, h61, lowerB_61]
        rw [if_pos (by rw [h61]; rfl), if_pos (by rw [h61b]; rfl)]
        exact ih hr
      · have h61b : c2 ≠ 61 := by
          intro hcon
          apply h61
          rw [← lowerB_eq_61, hc, hcon, lowerB_61]
        rw [if_neg (by simpa using h61), if_neg (by simpa using h61b)]
        simp only [List.map_cons, hc, hr]

theorem trimPad_icase {l1 l2 : List Nat} (h : l1.map lowerB = l2.map lowerB) :
    (trimPad l1).map lowerB = (trimPad l2).map lowerB := by
  unfold trimPad
  rw [List.map_reverse, List.map_reverse]
  apply congrArg
  apply dropPad_icase
  rw [List.map_reverse, List.map_reverse, h]

theorem trimPad_length_icase {l1 l2 : List Nat} (h : l1.map lowerB = l2.map lowerB) :
    (trimPad l1).length = (trimPad l2).length := by
  have h2 := trimPad_icase h
  have h3 := congrArg List.length h2
  simpa using h3

theorem endsPad_icase {l1 l2 : List Nat} (h : l1.map lowerB = l2.map lowerB) :
    endsPad l1 = endsPad l2 := by
  unfold endsPad
  have h1 : (l1.map lowerB).getLast? = (l2.map lowerB).getLast? := by rw [h]
  rw [List.getLast?_map, List.getLast?_map] at h1
  cases hg1 : l1.getLast? with
  | none =>
    rw [hg1] at h1
    cases hg2 : l2.getLast? with
    | none => rfl
    | some y => rw [hg2] at h1; exact Option.noConfusion h1
  | some x =>
    rw [hg1] at h1
    cases hg2 : l2.getLast? with
    | none => rw [hg2] at h1; exact Option.noConfusion h1
    | some y =>
      rw [hg2] at h1
      simp only [Option.map, Option.some.injEq] at h1
      have hxy : x = 61 ↔ y = 61 := by
        rw [← lowerB_eq_61, h1, lowerB_eq_61]
      by_cases hx : x = 61
      · rw [hx, (hxy.mp hx)]
      · have hy : y ≠ 61 := fun hc => hx (hxy.mpr hc)
        simp [hx, hy]

theorem mapHex_icase {l1 l2 : List Nat} (h : l1.map lowerB = l2.map lowerB) :
    mapHex l1 = mapHex l2 := by
  induction l1 generalizing l2 with
  | nil =>
    cases l2 with
    | nil => rfl
    | cons c2 r2 => simp at h
  | cons c1 r1 ih =>
    cases l2 with
    | nil => simp at h
    | cons c2 r2 =>
      simp only [List.map_cons, List.cons.injEq] at h
      obtain ⟨hc, hr⟩ := h
      unfold mapHex
      rw [show hexDigitVal c1 = hexDigitVal c2 from by
        rw [← hexDigitVal_lowerB c1, hc, hexDigitVal_lowerB], ih hr]

theorem hexDecode_icase {l1 l2 : List Nat} (h : l1.map lowerB = l2.map lowerB) :
    hexDecode l1 = hexDecode l2 := by
  have hlen : l1.length = l2.length := by
    have := congrArg List.length h
    simpa using this
  unfold hexDecode
  rw [hlen, mapHex_icase h]

theorem map_upperB_of_icase {l1 l2 : List Nat} (h : l1.map lowerB = l2.map lowerB) :
    l1.map upperB = l2.map upperB := by
  have h1 : ∀ l : List Nat, l.map upperB = (l.map lowerB).map upperB := by
    intro l
    rw [List.map_map]
    exact (List.map_congr_left (fun x _ => upperB_lowerB x)).symm
  rw [h1 l1, h1 l2, h]

theorem decodeValue_icase {E : Nat} {l1 l2 : List Nat}
    (h : l1.map lowerB = l2.map lowerB) : decodeValue E l1 = decodeValue E l2 := by
  unfold decodeValue
  rw [trimPad_length_icase h, endsPad_icase h, hexDecode_icase h,
      map_upperB_of_icase (trimPad_icase h)]

/-- Parsing a digest string is invariant under ASCII letter case. -/
theorem digestFromStr_icase {s1 s2 : List Nat} (h : eqIcase s1 s2 = true) :
    digestFromStr s1 = digestFromStr s2 := by
  have hmap : s1.map lowerB = s2.map lowerB := by
    unfold eqIcase at h
    exact eq_of_beq h
  unfold digestFromStr
  rcases splitColon_icase hmap with ⟨hn1, hn2⟩ | ⟨a1, b1, a2, b2, hs1, hs2, ha, hb⟩
  · rw [hn1, hn2]
    have halg : algFromStr s1 = algFromStr s2 := by
      unfold algFromStr
      rw [hmap]
    rw [show ((none : Option (List Nat × List Nat)).getD (s1, [])).1 = s1 from rfl,
        show ((none : Option (List Nat × List Nat)).getD (s2, [])).1 = s2 from rfl,
        show ((none : Option (List Nat × List Nat)).getD (s1, [])).2 = ([] : List Nat) from rfl,
        show ((none : Option (List Nat × List Nat)).getD (s2, [])).2 = ([] : List Nat) from rfl,
        halg]
  · rw [hs1, hs2]
    have halg : algFromStr a1 = algFromStr a2 := by
      unfold algFromStr
      rw [ha]
    rw [show ((some (a1, b1)).getD (s1, [])).1 = a1 from rfl,
        show ((some (a2, b2)).getD (s2, [])).1 = a2 from rfl,
        show ((some (a1, b1)).getD (s1, [])).2 = b1 from rfl,
        show ((some (a2, b2)).getD (s2, [])).2 = b2 from rfl,
        halg]
    cases algFromStr a2 with
    | none => rfl
    | some alg =>
      show Option.map (fun v => (alg, v)) (decodeValue (outputLen alg) b1) =
        Option.map (fun v => (alg, v)) (decodeValue (outputLen alg) b2)
      rw [decodeValue_icase hb]

theorem dropWhile_pad_replicate (j : Nat) (x : List Nat) :
    (List.replicate j 61 ++ x).dropWhile (fun b => b == 61) =
      x.dropWhile (fun b => b == 61) := by
  induction j with
  | zero => rfl
  | succ n ih =>
    rw [List.replicate_succ, List.cons_append, List.dropWhile_cons,
        if_pos (by decide), ih]

theorem trimPad_append_pad (x : List Nat) (j : Nat) :
    trimPad (x ++ List.replicate j 61) = trimPad x := by
  unfold trimPad
  rw [List.reverse_append, List.reverse_replicate, dropWhile_pad_replicate]

theorem mapHex_append_none {y : List Nat} (x : List Nat) (h : mapHex y = none) :
    mapHex (x ++ y) = none := by
  induction x with
  | nil => simpa
  | cons a r ih =>
    rw [List.cons_append]
    unfold mapHex
    cases hexDigitVal a with
    | none => rfl
    | some v => rw [ih]; rfl

theorem hexDecode_pad (x : List Nat) (m : Nat) :
    hexDecode (x ++ List.replicate (m + 1) 61) = none := by
  unfold hexDecode
  rw [mapHex_append_none x (by rw [List.replicate_succ]; rfl)]
  split <;> rfl

/-- The branch ambiguity in `decode_value` is unreachable: no length has
both a base32 and a hex decoded length equal to a digest output length
(all output lengths are at least 4). -/
theorem ambiguous_unreachable {E L : Nat} (hE : 4 ≤ E) :
    ¬(E = b32DecodeLen L ∧ E = hexDecodeLen L) := by
  unfold b32DecodeLen hexDecodeLen
  rintro ⟨h1, h2⟩
  split at h1 <;> split at h2 <;> omega

theorem outputLen_ge_4 (a : AlgorithmName) : 4 ≤ outputLen a := by
  cases a <;> decide

theorem splitColon_append {s t : List Nat} {a b : List Nat}
    (h : splitColon s = some (a, b)) : splitColon (s ++ t) = some (a, b ++ t) := by
  induction s generalizing a b with
  | nil => exact Option.noConfusion h
  | cons c r ih =>
    unfold splitColon at h
    by_cases hc : c = 58
    · rw [if_pos hc] at h
      injection h with h
      cases h
      rw [List.cons_append]
      unfold splitColon
      rw [if_pos hc]
    · rw [if_neg hc] at h
      cases hr : splitColon r with
      | none => rw [hr] at h; exact Option.noConfusion h
      | some p =>
        rw [hr] at h
        simp only [Option.map, Option.some.injEq] at h
        rw [List.cons_append]
        unfold splitColon
        rw [if_neg hc, ih hr]
        simp only [Option.map, Option.some.injEq]
        simp only [Prod.mk.injEq] at h
        obtain ⟨h1, h2⟩ := h
        rw [h1, h2]

theorem splitColon_replicate_pad (j : Nat) :
    splitColon (List.replicate j 61) = none := by
  induction j with
  | zero => rfl
  | succ n ih =>
    rw [List.replicate_succ]
    unfold splitColon
    rw [if_neg (by omega), ih]
    rfl

theorem splitColon_none_append {s t : List Nat} (hs : splitColon s = none)
    (ht : splitColon t = none) : splitColon (s ++ t) = none := by
  induction s with
  | nil => simpa
  | cons c r ih =>
    unfold splitColon at hs
    by_cases hc : c = 58
    · rw [if_pos hc] at hs
      exact Option.noConfusion hs
    · rw [if_neg hc] at hs
      cases hr : splitColon r with
      | some p => rw [hr] at hs; exact Option.noConfusion hs
      | none =>
        rw [List.cons_append]
        unfold splitColon
        rw [if_neg hc, ih hr]
        rfl

theorem append_pad_ne {x : List Nat} {j : Nat} {lit : List Nat}
    (h : lit.getLast? ≠ some 61) : x ++ List.replicate (j + 1) 61 ≠ lit := by
  intro he
  apply h
  rw [← he, List.replicate_succ', ← List.append_assoc, List.getLast?_concat]

theorem map_lowerB_append_pad (x : List Nat) (j : Nat) :
    (x ++ List.replicate j 61).map lowerB = x.map lowerB ++ List.replicate j 61 := by
  rw [List.map_append, List.map_replicate, lowerB_61]

/-- No algorithm label ends in `=` padding. -/
theorem algFromStr_pad (x : List Nat) (j : Nat) :
    algFromStr (x ++ List.replicate (j + 1) 61) = none := by
  unfold algFromStr removeCompatibilityLabel
  rw [map_lowerB_append_pad]
  rw [if_neg (append_pad_ne (by decide)), if_neg (append_pad_ne (by decide)),
      if_neg (append_pad_ne (by decide)), if_neg (append_pad_ne (by decide)),
      if_neg (append_pad_ne (by decide))]
  rw [if_neg (append_pad_ne (by decide)), if_neg (append_pad_ne (by decide)),
      if_neg (append_pad_ne (by decide)), if_neg (append_pad_ne (by decide)),
      if_neg (append_pad_ne (by decide)), if_neg (append_pad_ne (by decide)),
      if_neg (append_pad_ne (by decide)), if_neg (append_pad_ne (by decide)),
      if_neg (append_pad_ne (by decide)), if_neg (append_pad_ne (by decide)),
      if_neg (append_pad_ne (by decide))]

/-- Accepted values with and without trailing `=` padding decode to the
same bytes (the ambiguous branch being unreachable for real digest
lengths). -/
theorem decodeValue_pad {E : Nat} {enc : List Nat} {j : Nat} {v1 v2 : List Nat}
    (hE : 4 ≤ E) (h1 : decodeValue E enc = some v1)
    (h2 : decodeValue E (enc ++ List.replicate j 61) = some v2) : v1 = v2 := by
  cases j with
  | zero =>
    rw [List.replicate_zero, List.append_nil, h1] at h2
    injection h2
  | succ m =>
    unfold decodeValue at h1 h2
    rw [trimPad_append_pad] at h2
    have hamb : ¬(E = b32DecodeLen (trimPad enc).length ∧
        E = hexDecodeLen (trimPad enc).length) := ambiguous_unreachable hE
    rw [if_neg hamb] at h1 h2
    by_cases hb : E = b32DecodeLen (trimPad enc).length
    · rw [if_pos hb] at h1 h2
      rw [h1] at h2
      injection h2
    · rw [if_neg hb] at h1 h2
      rw [hexDecode_pad] at h2
      exact Option.noConfusion h2

/-- Parsing a digest string with and without trailing `=` padding yields
the same digest whenever both parses succeed. -/
theorem digestFromStr_pad {s : List Nat} {j : Nat} {d1 d2 : AlgorithmName × List Nat}
    (h1 : digestFromStr s = some d1)
    (h2 : digestFromStr (s ++ List.replicate j 61) = some d2) : d1 = d2 := by
  cases j with
  | zero =>
    rw [List.replicate_zero, List.append_nil, h1] at h2
    injection h2
  | succ m =>
    unfold digestFromStr at h1 h2
    cases hs : splitColon s with
    | none =>
      rw [splitColon_none_append hs (splitColon_replicate_pad (m + 1)),
          show ((none : Option (List Nat × List Nat)).getD
            (s ++ List.replicate (m + 1) 61, [])).1 =
            s ++ List.replicate (m + 1) 61 from rfl,
          algFromStr_pad s m] at h2
      exact Option.noConfusion h2
    | some p =>
      rw [hs] at h1
      rw [splitColon_append hs] at h2
      rw [show ((some p).getD (s, [])).1 = p.1 from rfl,
          show ((some p).getD (s, [])).2 = p.2 from rfl] at h1
      rw [show ((some (p.1, p.2 ++ List.replicate (m + 1) 61)).getD
            (s ++ List.replicate (m + 1) 61, [])).1 = p.1 from rfl,
          show ((some (p.1, p.2 ++ List.replicate (m + 1) 61)).getD
            (s ++ List.replicate (m + 1) 61, [])).2 =
            p.2 ++ List.replicate (m + 1) 61 from rfl] at h2
      cases halg : algFromStr p.1 with
      | none =>
        rw [halg] at h1
        exact Option.noConfusion h1
      | some alg =>
        rw [halg] at h1 h2
        have h1a : Option.map (fun v => (alg, v))
            (decodeValue (outputLen alg) p.2) = some d1 := h1
        have h2a : Option.map (fun v => (alg, v))
            (decodeValue (outputLen alg) (p.2 ++ List.replicate (m + 1) 61)) =
            some d2 := h2
        cases hv1 : decodeValue (outputLen alg) p.2 with
        | none =>
          rw [hv1] at h1a
          exact Option.noConfusion h1a
        | some v1 =>
          cases hv2 : decodeValue (outputLen alg) (p.2 ++ List.replicate (m + 1) 61) with
          | none =>
            rw [hv2] at h2a
            exact Option.noConfusion h2a
          | some v2 =>
            rw [hv1] at h1a
            rw [hv2] at h2a
            simp only [Option.map, Option.some.injEq] at h1a h2a
            rw [← h1a, ← h2a, decodeValue_pad (outputLen_ge_4 alg) hv1 hv2]

/-- **C5**: a parsed digest re-serializes to the canonical form — the
lowercase algorithm label, a colon, then the value in base32 for sha1
and hex-lower otherwise — and this canonical form is identical for
accepted inputs that differ only in ASCII letter case or only in the
presence of trailing base32 `=` padding. -/
theorem C5_digest_canonical_form :
    (∀ d : AlgorithmName × List Nat, digestToString d =
      asStr d.1 ++ 58 ::
        (if d.1 = AlgorithmName.sha1 then b32Encode d.2 else hexEncode d.2)) ∧
    (∀ s1 s2 : List Nat, ∀ d1 d2 : AlgorithmName × List Nat,
      eqIcase s1 s2 = true →
      digestFromStr s1 = some d1 → digestFromStr s2 = some d2 →
      digestToString d1 = digestToString d2) ∧
    (∀ s : List Nat, ∀ j : Nat, ∀ d1 d2 : AlgorithmName × List Nat,
      digestFromStr s = some d1 →
      digestFromStr (s ++ List.replicate j 61) = some d2 →
      digestToString d1 = digestToString d2) := by
  refine ⟨?_, ?_, ?_⟩
  · intro d
    obtain ⟨a, v⟩ := d
    cases a <;> rfl
  · intro s1 s2 d1 d2 h h1 h2
    rw [digestFromStr_icase h, h2] at h1
    injection h1 with h1
    rw [h1]
  · intro s j d1 d2 h1 h2
    rw [digestFromStr_pad h1 h2]

/-- **C5 witness**: the repository's md5 test vector, in unpadded base32
and with its six `=` padding characters restored, parses to the same
digest, and the canonical serializations coincide (concrete application
of the padding-invariance part). -/
theorem C5_digest_canonical_form_witness :
    digestFromStr (bs "md5:wgkgvsjesljdi7dcgw2neyirqq") =
      some (AlgorithmName.md5,
        [177, 148, 106, 201, 36, 146, 210, 52, 124, 98, 53, 180, 210, 97, 17, 132]) ∧
    digestFromStr (bs "md5:wgkgvsjesljdi7dcgw2neyirqq" ++ List.replicate 6 61) =
      some (AlgorithmName.md5,
        [177, 148, 106, 201, 36, 146, 210, 52, 124, 98, 53, 180, 210, 97, 17, 132]) ∧
    digestToString (AlgorithmName.md5,
        [177, 148, 106, 201, 36, 146, 210, 52, 124, 98, 53, 180, 210, 97, 17, 132]) =
      digestToString (AlgorithmName.md5,
        [177, 148, 106, 201, 36, 146, 210, 52, 124, 98, 53, 180, 210, 97, 17, 132]) :=
  ⟨by decide, by decide,
   C5_digest_canonical_form.2.2 (bs "md5:wgkgvsjesljdi7dcgw2neyirqq") 6
     (AlgorithmName.md5,
       [177, 148, 106, 201, 36, 146, 210, 52, 124, 98, 53, 180, 210, 97, 17, 132])
     (AlgorithmName.md5,
       [177, 148, 106, 201, 36, 146, 210, 52, 124, 98, 53, 180, 210, 97, 17, 132])
     (by decide) (by decide)⟩

/-- Modelled from the spec: the `dictionary` configuration —
`none`, `zstd(bytes)` (detached), or `warc_zstd(bytes)` (embedded via
skippable frame); the `Dictionary` type itself lives in the compress
module root, not present under `src/`. -/
inductive Dictionary : Type where
  | noDict
  | zstdDict (data : List Nat)
  | warcZstd (data : List Nat)
deriving DecidableEq

/-- `Dictionary::is_warc_zstd` -/
def isWarcZstd : Dictionary → Bool
  | .warcZstd _ => true
  | _ => false

/-- `u32::from_le_bytes` over the first four bytes. -/
def le32 : List Nat → Nat
  | b0 :: b1 :: b2 :: b3 :: _ => b0 + 256 * b1 + 65536 * b2 + 16777216 * b3
  | _ => 0

/-- `src/compress/zstd.rs::is_skippable_frame`
(`0x184D2A50..=0x184D2A5F`). -/
def isSkippableFrame (m : Nat) : Bool := 407710288 ≤ m && m ≤ 407710303

/-- `src/compress/zstd.rs::extract_warc_zst_dictionary`, with
`zstd::bulk::decompress` (a zstd-library call, output bounded at
`BULK_BUFFER_LENGTH`) abstracted as the `bulk` parameter; `none` models
its io error.  `WARC_DICT_FRAME = 0x184D2A5D = 407710301`,
`BULK_BUFFER_LENGTH = 16777216`, `ZSTD_FRAME` little-endian bytes
`[40, 181, 47, 253]`. -/
inductive DictExtractError : Type where
  | tooLarge
  | notDict
  | ioError
deriving DecidableEq

def extractWarcZstDictionary (bulk : List Nat → Option (List Nat))
    (input : List Nat) : Except DictExtractError (List Nat) :=
  if input.length < 8 then .error .ioError
  else if 16777216 < le32 (input.drop 4) then .error .tooLarge
  else if le32 input ≠ 407710301 then .error .notDict
  else if input.length < 8 + le32 (input.drop 4) then .error .ioError
  else if [40, 181, 47, 253].isPrefixOf ((input.drop 8).take (le32 (input.drop 4))) then
    match bulk ((input.drop 8).take (le32 (input.drop 4))) with
    | none => .error .ioError
    | some d => .ok d
  else .ok ((input.drop 8).take (le32 (input.drop 4)))

/-- `src/compress/zstd/decode.rs::PushDecoderState` -/
inductive ZPDState : Type where
  | fileHeader
  | frameHeader
  | dictionaryFrameData
  | skippableFrameData
  | zstdFrame
deriving DecidableEq

/-- `ZstdPushDecoder`: the raw zstd frame decoder is represented by the
dictionary currently loaded into it (`frameDecoderDict`); the bytes
handed to it for raw-frame decompression are recorded in
`zstdFrameInput` (the decompression itself is a zstd-library call and is
not modelled — none of the theorems below enter that state). -/
structure ZstdPushDec : Type where
  state : ZPDState
  dictionary : Dictionary
  frameDecoderDict : Option (List Nat)
  magicNumber : Nat
  dataLength : Nat
  dataCurrent : Nat
  buf : List Nat
  zstdFrameInput : List Nat
deriving DecidableEq

/-- `ZstdPushDecoder::new` -/
def zstdPushDecNew (dictionary : Dictionary) : ZstdPushDec :=
  ⟨.fileHeader, dictionary,
   (match dictionary with | .zstdDict v => some v | _ => none),
   0, 0, 0, [], []⟩

/-- `read_magic_bytes` result: `Ok(n)` or `Err(n)` consumed bytes. -/
inductive MagicRead : Type where
  | consumed (n : Nat)
  | buffered (n : Nat)
deriving DecidableEq

/-- `ZstdPushDecoder::read_magic_bytes` -/
def readMagicBytes (s : ZstdPushDec) (buf : List Nat) : ZstdPushDec × MagicRead :=
  if s.buf.isEmpty && decide (8 ≤ buf.length) then
    ({ s with magicNumber := le32 buf,
              dataLength := le32 (buf.drop 4),
              dataCurrent := 0 }, .consumed 8)
  else if 8 ≤ s.buf.length + buf.length then
    ({ s with buf := s.buf ++ buf.take (8 - s.buf.length),
              magicNumber := le32 (s.buf ++ buf.take (8 - s.buf.length)),
              dataLength := le32 ((s.buf ++ buf.take (8 - s.buf.length)).drop 4),
              dataCurrent := 0 }, .consumed (8 - s.buf.length))
  else ({ s with buf := s.buf ++ buf }, .buffered buf.length)

/-- `ZstdPushDecoder::process_zstd_frame`, modelled as recording the
input handed to the raw zstd frame decoder. -/
def processZstdFrame (s : ZstdPushDec) (buf : Option (List Nat)) :
    ZstdPushDec × Nat :=
  ({ s with zstdFrameInput := s.zstdFrameInput ++ buf.getD s.buf },
   (buf.getD s.buf).length)

/-- `ZstdPushDecoder::process_header` (`enable_dict = true` from
`FileHeader`, `false` from `FrameHeader`): classify the frame by magic
number; note there is no check of `data_length` here. -/
def processHeaderZ (enableDict : Bool) (s : ZstdPushDec) (buf : List Nat) :
    ZstdPushDec × Nat :=
  match readMagicBytes s buf with
  | (s1, .consumed n) =>
    if enableDict && (s1.magicNumber == 407710301) && isWarcZstd s1.dictionary then
      ({ s1 with state := .dictionaryFrameData, buf := [] }, n)
    else if isSkippableFrame s1.magicNumber then
      ({ s1 with state := .skippableFrameData, buf := [] }, n)
    else
      ({ (processZstdFrame { s1 with state := .zstdFrame }
          (if s1.buf.isEmpty then some (buf.take 8) else none)).1 with buf := [] }, n)
  | (s1, .buffered n) => (s1, n)

/-- `ZstdPushDecoder::read_skippable_frame`: consume up to the declared
remaining payload length. -/
def readSkippableFrame (s : ZstdPushDec) (buf : List Nat) :
    ZstdPushDec × List Nat × Nat :=
  ({ s with dataCurrent := s.dataCurrent + min (s.dataLength - s.dataCurrent) buf.length },
   buf.take (min (s.dataLength - s.dataCurrent) buf.length),
   min (s.dataLength - s.dataCurrent) buf.length)

/-- `ZstdPushDecoder::process_dictionary_frame_data`: append the payload
to the dictionary; once complete, bulk-decompress it when it carries the
zstd frame magic, and load it into the raw frame decoder.  `none` models
the `unwrap` panic (non-`warc_zstd` dictionary) and io errors. -/
def processDictionaryFrameData (bulk : List Nat → Option (List Nat))
    (s : ZstdPushDec) (buf : List Nat) : Option (ZstdPushDec × Nat) :=
  match readSkippableFrame s buf with
  | (s1, data, n) =>
    match s1.dictionary with
    | .warcZstd d =>
      if s1.dataCurrent = s1.dataLength then
        if [40, 181, 47, 253].isPrefixOf (d ++ data) then
          match bulk (d ++ data) with
          | none => none
          | some decomp =>
            some ({ s1 with dictionary := .warcZstd decomp,
                            frameDecoderDict := some decomp,
                            state := .frameHeader }, n)
        else
          some ({ s1 with dictionary := .warcZstd (d ++ data),
                          frameDecoderDict := some (d ++ data),
                          state := .frameHeader }, n)
      else some ({ s1 with dictionary := .warcZstd (d ++ data) }, n)
    | _ => none

/-- `ZstdPushDecoder::process_skippable_frame_data`: consume the payload
and ignore it. -/
def processSkippableFrameData (s : ZstdPushDec) (buf : List Nat) :
    ZstdPushDec × Nat :=
  match readSkippableFrame s buf with
  | (s1, _, n) =>
    if s1.dataCurrent = s1.dataLength then ({ s1 with state := .frameHeader }, n)
    else (s1, n)

/-- `<ZstdPushDecoder as Write>::write` -/
def zWrite (bulk : List Nat → Option (List Nat)) (s : ZstdPushDec)
    (buf : List Nat) : Option (ZstdPushDec × Nat) :=
  match s.state with
  | .fileHeader => some (processHeaderZ true s buf)
  | .frameHeader => some (processHeaderZ false s buf)
  | .dictionaryFrameData => processDictionaryFrameData bulk s buf
  | .skippableFrameData => some (processSkippableFrameData s buf)
  | .zstdFrame => some (processZstdFrame s (some buf))

/-- a concrete always-failing bulk decompressor for closed statements. -/
def bulkNone : List Nat → Option (List Nat) := fun _ => none

theorem readMagicBytes_direct {s : ZstdPushDec} {buf : List Nat}
    (h0 : s.buf = []) (h8 : 8 ≤ buf.length) :
    readMagicBytes s buf =
      ({ s with magicNumber := le32 buf,
                dataLength := le32 (buf.drop 4),
                dataCurrent := 0 }, .consumed 8) := by
  have he : (s.buf.isEmpty && decide (8 ≤ buf.length)) = true := by
    rw [h0]
    simp [h8]
  unfold readMagicBytes
  rw [if_pos he]

/-- Frame classification by `process_header` when the whole 8-byte frame
header arrives at once: dictionary frame, skippable frame or zstd frame;
the declared payload length is never inspected. -/
theorem processHeaderZ_direct {e : Bool} {s : ZstdPushDec} {buf : List Nat}
    (h0 : s.buf = []) (h8 : 8 ≤ buf.length) :
    processHeaderZ e s buf =
      (if e && (le32 buf == 407710301) && isWarcZstd s.dictionary then
        ({ s with magicNumber := le32 buf, dataLength := le32 (buf.drop 4),
                  dataCurrent := 0, state := .dictionaryFrameData, buf := [] }, 8)
      else if isSkippableFrame (le32 buf) then
        ({ s with magicNumber := le32 buf, dataLength := le32 (buf.drop 4),
                  dataCurrent := 0, state := .skippableFrameData, buf := [] }, 8)
      else
        ({ s with magicNumber := le32 buf, dataLength := le32 (buf.drop 4),
                  dataCurrent := 0, state := .zstdFrame, buf := [],
                  zstdFrameInput := s.zstdFrameInput ++ buf.take 8 }, 8)) := by
  unfold processHeaderZ processZstdFrame
  rw [readMagicBytes_direct h0 h8]
  dsimp only
  rw [h0]
  rfl

theorem extract_tooLarge {bulk : List Nat → Option (List Nat)} {input : List Nat}
    (h8 : 8 ≤ input.length) (h16 : 16777216 < le32 (input.drop 4)) :
    extractWarcZstDictionary bulk input = .error .tooLarge := by
  unfold extractWarcZstDictionary
  rw [if_neg (by omega), if_pos h16]

theorem skippable_ignored (s : ZstdPushDec) (buf : List Nat) :
    (processSkippableFrameData s buf).1.dictionary = s.dictionary ∧
    (processSkippableFrameData s buf).1.frameDecoderDict = s.frameDecoderDict ∧
    (processSkippableFrameData s buf).1.zstdFrameInput = s.zstdFrameInput ∧
    (processSkippableFrameData s buf).2 =
      min (s.dataLength - s.dataCurrent) buf.length := by
  unfold processSkippableFrameData readSkippableFrame
  dsimp only
  split <;> exact ⟨rfl, rfl, rfl, rfl⟩

theorem dict_install_raw {bulk : List Nat → Option (List Nat)}
    {s : ZstdPushDec} {buf d : List Nat}
    (hd : s.dictionary = Dictionary.warcZstd d)
    (hlen : s.dataCurrent + buf.length = s.dataLength)
    (hpre : [40, 181, 47, 253].isPrefixOf (d ++ buf) = false) :
    processDictionaryFrameData bulk s buf =
      some ({ s with dataCurrent := s.dataCurrent + buf.length,
                     dictionary := .warcZstd (d ++ buf),
                     frameDecoderDict := some (d ++ buf),
                     state := .frameHeader }, buf.length) := by
  unfold processDictionaryFrameData readSkippableFrame
  dsimp only
  have hmin : min (s.dataLength - s.dataCurrent) buf.length = buf.length := by omega
  rw [hmin, List.take_length, hd]
  dsimp only
  rw [if_pos (by omega), hpre]
  rfl

theorem dict_install_compressed {bulk : List Nat → Option (List Nat)}
    {s : ZstdPushDec} {buf d out : List Nat}
    (hd : s.dictionary = Dictionary.warcZstd d)
    (hlen : s.dataCurrent + buf.length = s.dataLength)
    (hpre : [40, 181, 47, 253].isPrefixOf (d ++ buf) = true)
    (hbulk : bulk (d ++ buf) = some out) :
    processDictionaryFrameData bulk s buf =
      some ({ s with dataCurrent := s.dataCurrent + buf.length,
                     dictionary := .warcZstd out,
                     frameDecoderDict := some out,
                     state := .frameHeader }, buf.length) := by
  unfold processDictionaryFrameData readSkippableFrame
  dsimp only
  have hmin : min (s.dataLength - s.dataCurrent) buf.length = buf.length := by omega
  rw [hmin, List.take_length, hd]
  dsimp only
  rw [if_pos (by omega), hpre, hbulk]
  rfl

/-- **C4 counterexample**: the streaming zstd push decoder accepts a
dictionary skippable frame whose declared 4-byte length is
16 MiB + 1 (`16777217`): it transitions to `DictionaryFrameData` and
consumes the 8 header bytes without any rejection.  Only the standalone
`extract_warc_zst_dictionary` helper rejects the same header with
`TooLarge`. -/
theorem C4_counterexample :
    (zWrite bulkNone (zstdPushDecNew (Dictionary.warcZstd []))
        [93, 42, 77, 24, 1, 0, 0, 1]).map
        (fun r => (r.1.state, r.1.dataLength, r.2)) =
      some (ZPDState.dictionaryFrameData, 16777217, 8) ∧
    extractWarcZstDictionary bulkNone [93, 42, 77, 24, 1, 0, 0, 1] =
      .error DictExtractError.tooLarge := by
  decide

/-- **C4** (amended): the first frame is classified by its little-endian
magic number — `0x184D2A5D` with a configured `warc_zstd` dictionary
gives the dictionary frame, any magic in `0x184D2A50..=0x184D2A5F`
otherwise gives an ignored skippable frame — but the 4-byte length is
never checked by the push decoder (the `> 16 MiB` rejection exists only
in the standalone `extract_warc_zst_dictionary` helper); a completed
dictionary payload starting with `0xFD2FB528` is bulk-decompressed and
the result installed as the decompression dictionary, a raw payload is
installed as-is, and a skippable frame's payload changes neither the
dictionary nor the frame decoder. -/
theorem C4_zstd_dictionary_frame_handling :
    (∀ (e : Bool) (s : ZstdPushDec) (buf : List Nat),
      s.buf = [] → 8 ≤ buf.length →
      (e && (le32 buf == 407710301) && isWarcZstd s.dictionary) = true →
      processHeaderZ e s buf =
        ({ s with magicNumber := le32 buf, dataLength := le32 (buf.drop 4),
                  dataCurrent := 0, state := .dictionaryFrameData, buf := [] }, 8)) ∧
    (∀ (e : Bool) (s : ZstdPushDec) (buf : List Nat),
      s.buf = [] → 8 ≤ buf.length →
      (e && (le32 buf == 407710301) && isWarcZstd s.dictionary) = false →
      isSkippableFrame (le32 buf) = true →
      processHeaderZ e s buf =
        ({ s with magicNumber := le32 buf, dataLength := le32 (buf.drop 4),
                  dataCurrent := 0, state := .skippableFrameData, buf := [] }, 8)) ∧
    (∀ (bulk : List Nat → Option (List Nat)) (input : List Nat),
      8 ≤ input.length → 16777216 < le32 (input.drop 4) →
      extractWarcZstDictionary bulk input = .error .tooLarge) ∧
    (∀ (s : ZstdPushDec) (buf : List Nat),
      (processSkippableFrameData s buf).1.dictionary = s.dictionary ∧
      (processSkippableFrameData s buf).1.frameDecoderDict = s.frameDecoderDict ∧
      (processSkippableFrameData s buf).1.zstdFrameInput = s.zstdFrameInput ∧
      (processSkippableFrameData s buf).2 =
        min (s.dataLength - s.dataCurrent) buf.length) ∧
    (∀ (bulk : List Nat → Option (List Nat)) (s : ZstdPushDec) (buf d out : List Nat),
      s.dictionary = Dictionary.warcZstd d →
      s.dataCurrent + buf.length = s.dataLength →
      [40, 181, 47, 253].isPrefixOf (d ++ buf) = true →
      bulk (d ++ buf) = some out →
      processDictionaryFrameData bulk s buf =
        some ({ s with dataCurrent := s.dataCurrent + buf.length,
                       dictionary := .warcZstd out,
                       frameDecoderDict := some out,
                       state := .frameHeader }, buf.length)) ∧
    (∀ (bulk : List Nat → Option (List Nat)) (s : ZstdPushDec) (buf d : List Nat),
      s.dictionary = Dictionary.warcZstd d →
      s.dataCurrent + buf.length = s.dataLength →
      [40, 181, 47, 253].isPrefixOf (d ++ buf) = false →
      processDictionaryFrameData bulk s buf =
        some ({ s with dataCurrent := s.dataCurrent + buf.length,
                       dictionary := .warcZstd (d ++ buf),
                       frameDecoderDict := some (d ++ buf),
                       state := .frameHeader }, buf.length)) := by
  refine ⟨?_, ?_, ?_, ?_, ?_, ?_⟩
  · intro e s buf h0 h8 hc
    rw [processHeaderZ_direct h0 h8, if_pos hc]
  · intro e s buf h0 h8 hc hsk
    rw [processHeaderZ_direct h0 h8, if_neg (by rw [hc]; exact Bool.false_ne_true),
        if_pos hsk]
  · intro bulk input h8 h16
    exact extract_tooLarge h8 h16
  · intro s buf
    exact skippable_ignored s buf
  · intro bulk s buf d out hd hlen hpre hbulk
    exact dict_install_compressed hd hlen hpre hbulk
  · intro bulk s buf d hd hlen hpre
    exact dict_install_raw hd hlen hpre

/-- **C4 witness**: concrete application — a fresh decoder with an empty
embedded dictionary classifies the 16 MiB + 1 dictionary frame header
into `DictionaryFrameData`. -/
theorem C4_zstd_dictionary_frame_handling_witness :
    processHeaderZ true (zstdPushDecNew (Dictionary.warcZstd []))
        [93, 42, 77, 24, 1, 0, 0, 1] =
      ({ zstdPushDecNew (Dictionary.warcZstd []) with
         magicNumber := le32 [93, 42, 77, 24, 1, 0, 0, 1],
         dataLength := le32 ([93, 42, 77, 24, 1, 0, 0, 1].drop 4),
         dataCurrent := 0, state := .dictionaryFrameData, buf := [] }, 8) :=
  C4_zstd_dictionary_frame_handling.1 true (zstdPushDecNew (Dictionary.warcZstd []))
    [93, 42, 77, 24, 1, 0, 0, 1] (by rfl) (by decide) (by decide)

/-- Verifier problem kinds relevant to the segment checks
(`src/verify.rs::ProblemKind`, field names as byte lists). -/
inductive VProblem : Type where
  | requiredFieldMissing (name : List Nat)
  | prohibitedField (name : List Nat)
  | parseInt (name : List Nat)
  | invalidSegment
  | missingSegment (n : Nat)
  | mismatchedSegmentLength (expect actual : Nat)
deriving DecidableEq

/-- The per-origin inner loop of `Verifier::check_segments` over the
segment-id table entries `(number, block_length)` in increasing `number`
order (the table iterates its sorted key range): accumulate one
`MissingSegment(expected_number)` at the start of each gap and the sum
of the block lengths. -/
def segLoop : Nat → Nat → List (Nat × Nat) → List VProblem × Nat
  | _, total, [] => ([], total)
  | expected, total, (number, blockLen) :: rest =>
    if number ≠ expected then
      ((segLoop (number + 1) (total + blockLen) rest).1.cons
        (.missingSegment expected),
       (segLoop (number + 1) (total + blockLen) rest).2)
    else segLoop (expected + 1) (total + blockLen) rest

/-- One `segment_lengths` entry of `Verifier::check_segments`: run the
loop from `expected_number = 1`, then report a total-length mismatch. -/
def checkSegmentsOrigin (expectedTotal : Nat) (segs : List (Nat × Nat)) :
    List VProblem :=
  if expectedTotal ≠ (segLoop 1 0 segs).2 then
    (segLoop 1 0 segs).1 ++
      [.mismatchedSegmentLength expectedTotal (segLoop 1 0 segs).2]
  else (segLoop 1 0 segs).1

theorem segLoop_total (segs : List (Nat × Nat)) :
    ∀ e t, (segLoop e t segs).2 = t + (segs.map Prod.snd).sum := by
  induction segs with
  | nil => intro e t; simp [segLoop]
  | cons p rest ih =>
    intro e t
    obtain ⟨number, blockLen⟩ := p
    unfold segLoop
    split
    · rw [ih (number + 1) (t + blockLen)]
      simp
      omega
    · rw [ih (e + 1) (t + blockLen)]
      simp
      omega

theorem segLoop_probs_shape (segs : List (Nat × Nat)) :
    ∀ e t, ∀ p ∈ (segLoop e t segs).1, ∃ n, p = VProblem.missingSegment n := by
  induction segs with
  | nil => intro e t p hp; simp [segLoop] at hp
  | cons q rest ih =>
    intro e t p hp
    obtain ⟨number, blockLen⟩ := q
    unfold segLoop at hp
    split at hp
    · simp only [List.cons] at hp
      rcases List.mem_cons.mp hp with h | h
      · exact ⟨e, h⟩
      · exact ih (number + 1) (t + blockLen) p h
    · exact ih (e + 1) (t + blockLen) p hp

theorem checkSegmentsOrigin_eq (E : Nat) (segs : List (Nat × Nat)) :
    checkSegmentsOrigin E segs =
      (segLoop 1 0 segs).1 ++
        (if E ≠ (segs.map Prod.snd).sum
         then [VProblem.mismatchedSegmentLength E ((segs.map Prod.snd).sum)]
         else []) := by
  unfold checkSegmentsOrigin
  rw [segLoop_total segs 1 0, Nat.zero_add]
  split
  · rfl
  · exact (List.append_nil _).symm

/-- **C8 counterexample**: the verifier emits one `MissingSegment` per
maximal gap, naming only its first missing number — for segments
numbered 1 and 4, both 2 and 3 are gaps in the numbering, yet only
`MissingSegment(2)` is emitted, never `MissingSegment(3)`. -/
theorem C8_counterexample :
    checkSegmentsOrigin 7 [(1, 3), (4, 4)] = [VProblem.missingSegment 2] ∧
    (∀ b : Nat, (3, b) ∉ [(1, 3), (4, 4)]) ∧
    VProblem.missingSegment 3 ∉ checkSegmentsOrigin 7 [(1, 3), (4, 4)] := by
  refine ⟨by decide, ?_, by decide⟩
  intro b
  simp

/-- **C8** (amended): per origin the verifier walks the recorded
segments in increasing number, emits `MissingSegment(n)` once per
maximal gap with `n` the gap's first missing number, and appends
`MismatchedSegmentLength{expect, actual}` exactly when the declared
total differs from the sum of the recorded block lengths; segments of
lengths 3 and 4 numbered 1 and 3 with declared total 7 yield exactly
`MissingSegment(2)`, and shortening the second block to 3 adds
`MismatchedSegmentLength{expect: 7, actual: 6}`. -/
theorem C8_segment_verification :
    (∀ (E : Nat) (segs : List (Nat × Nat)), checkSegmentsOrigin E segs =
      (segLoop 1 0 segs).1 ++
        (if E ≠ (segs.map Prod.snd).sum
         then [VProblem.mismatchedSegmentLength E ((segs.map Prod.snd).sum)]
         else [])) ∧
    (∀ (E : Nat) (segs : List (Nat × Nat)) (p : VProblem),
      p ∈ checkSegmentsOrigin E segs →
      (∃ n, p = VProblem.missingSegment n) ∨
        (p = VProblem.mismatchedSegmentLength E ((segs.map Prod.snd).sum) ∧
         E ≠ (segs.map Prod.snd).sum)) ∧
    checkSegmentsOrigin 7 [(1, 3), (3, 4)] = [VProblem.missingSegment 2] ∧
    checkSegmentsOrigin 7 [(1, 3), (3, 3)] =
      [VProblem.missingSegment 2, VProblem.mismatchedSegmentLength 7 6] := by
  refine ⟨checkSegmentsOrigin_eq, ?_, by decide, by decide⟩
  intro E segs p hp
  rw [checkSegmentsOrigin_eq] at hp
  rcases List.mem_append.mp hp with h | h
  · exact Or.inl (segLoop_probs_shape segs 1 0 p h)
  · by_cases hne : E ≠ (segs.map Prod.snd).sum
    · rw [if_pos hne] at h
      exact Or.inr ⟨List.mem_singleton.mp h, hne⟩
    · rw [if_neg hne] at h
      exact absurd h (List.not_mem_nil p)

/-- **C8 witness**: concrete application of the problem-shape part at
the claim's instance. -/
theorem C8_segment_verification_witness :
    (∃ n, VProblem.missingSegment 2 = VProblem.missingSegment n) ∨
      (VProblem.missingSegment 2 =
        VProblem.mismatchedSegmentLength 7 (([(1, 3), (3, 4)].map Prod.snd).sum) ∧
       7 ≠ (([(1, 3), (3, 4)].map Prod.snd).sum)) :=
  C8_segment_verification.2.1 7 [(1, 3), (3, 4)] (VProblem.missingSegment 2)
    (by decide)

/-- `FieldMap::get_u64_strict`: `None` when the field is absent,
`some none` when present but not a strict u64, `some (some n)` when it
parses. -/
def getU64Strict (m : FieldMap) (name : List Nat) : Option (Option Nat) :=
  (fmGet m name).map parseU64Strict

/-- `Verifier::record_type` (`get_or_default`). -/
def recordType (h : WarcHeader) : List Nat := (fmGet h.fields (bs "WARC-Type")).getD []

/-- Observable effects of the segment bookkeeping: recorded problems,
insertions into the segment-id table (`(origin, number) ↦ block length`)
and into the segment-length table (`origin ↦ declared total`). -/
structure SegEffects : Type where
  problems : List VProblem
  idInserts : List ((List Nat × Nat) × Nat)
  lengthInserts : List (List Nat × Nat)
deriving DecidableEq

/-- `Verifier::require_field` -/
def requireField (h : WarcHeader) (name : List Nat) : List VProblem :=
  if fmContains h.fields name then [] else [.requiredFieldMissing name]

/-- `Verifier::prohibit_field` -/
def prohibitField (h : WarcHeader) (name : List Nat) : List VProblem :=
  if fmContains h.fields name then [.prohibitedField name] else []

/-- The require/prohibit checks at the top of `Verifier::segment`. -/
def segmentFieldProblems (h : WarcHeader) : List VProblem :=
  if recordType h = bs "continuation" then
    requireField h (bs "WARC-Segment-Origin-ID") ++
    requireField h (bs "WARC-Segment-Total-Length") ++
    requireField h (bs "WARC-Segment-Number")
  else
    prohibitField h (bs "WARC-Segment-Origin-ID") ++
    prohibitField h (bs "WARC-Segment-Total-Length")

/-- `Verifier::segment_begin`: `none` models the
`content_length().unwrap()` panic. -/
def segmentBegin (h : WarcHeader) : Option SegEffects :=
  match contentLengthF h with
  | none => none
  | some cl =>
    some ⟨(if recordType h = bs "continuation" then [.invalidSegment] else []),
          [(((fmGet h.fields (bs "WARC-Record-ID")).getD [], 1), cl)], []⟩

/-- `Verifier::segment_middle`: `none` models the
`content_length().unwrap()` panic. -/
def segmentMiddle (h : WarcHeader) (number : Nat) : Option SegEffects :=
  match contentLengthF h with
  | none => none
  | some cl =>
    some ⟨[], [(((fmGet h.fields (bs "WARC-Segment-Origin-ID")).getD [], number), cl)],
          []⟩

/-- `Verifier::segment_end` -/
def segmentEnd (h : WarcHeader) (number : Nat) : Option SegEffects :=
  match segmentMiddle h number with
  | none => none
  | some eff =>
    match getU64Strict h.fields (bs "WARC-Segment-Total-Length") with
    | none => some eff
    | some none =>
      some { eff with problems :=
        eff.problems ++ [.parseInt (bs "WARC-Segment-Total-Length")] }
    | some (some total) =>
      some { eff with lengthInserts :=
        eff.lengthInserts ++
          [((fmGet h.fields (bs "WARC-Segment-Origin-ID")).getD [], total)] }

/-- `Verifier::segment` (run by `begin_record` when the `Segment` check
is enabled): `none` models a panic. -/
def verifierSegment (h : WarcHeader) : Option SegEffects :=
  match getU64Strict h.fields (bs "WARC-Segment-Number") with
  | none => some ⟨segmentFieldProblems h, [], []⟩
  | some none =>
    some ⟨segmentFieldProblems h ++ [.parseInt (bs "WARC-Segment-Number")], [], []⟩
  | some (some number) =>
    if number = 1 then
      (segmentBegin h).map
        (fun eff => { eff with problems := segmentFieldProblems h ++ eff.problems })
    else if fmContains h.fields (bs "WARC-Segment-Total-Length") then
      (segmentEnd h number).map
        (fun eff => { eff with problems := segmentFieldProblems h ++ eff.problems })
    else
      (segmentMiddle h number).map
        (fun eff => { eff with problems := segmentFieldProblems h ++ eff.problems })

theorem segmentBegin_none (h : WarcHeader) :
    segmentBegin h = none ↔ contentLengthF h = none := by
  unfold segmentBegin
  cases hcl : contentLengthF h <;> simp

theorem segmentMiddle_none (h : WarcHeader) (n : Nat) :
    segmentMiddle h n = none ↔ contentLengthF h = none := by
  unfold segmentMiddle
  cases hcl : contentLengthF h <;> simp

theorem segmentEnd_none (h : WarcHeader) (n : Nat) :
    segmentEnd h n = none ↔ contentLengthF h = none := by
  unfold segmentEnd
  cases hm : segmentMiddle h n with
  | none =>
    constructor
    · intro _
      exact (segmentMiddle_none h n).mp hm
    · intro _
      rfl
  | some eff =>
    have hne : ¬(contentLengthF h = none) := fun hcl =>
      Option.noConfusion ((hm.symm.trans ((segmentMiddle_none h n).mpr hcl)))
    cases hg : getU64Strict h.fields (bs "WARC-Segment-Total-Length") with
    | none => simp [hne]
    | some o => cases o <;> simp [hne]

theorem map_isNone_iff_cl {h : WarcHeader} {g : Option SegEffects}
    (hg : g = none ↔ contentLengthF h = none) (f : SegEffects → SegEffects) :
    ((g.map f).isNone = true) ↔ contentLengthF h = none := by
  cases g with
  | none => simp [hg.mp rfl]
  | some eff =>
    have hne : ¬(contentLengthF h = none) := fun hcl =>
      Option.noConfusion (hg.mpr hcl)
    simp [hne]

/-- **C10**: with the `Segment` check enabled, the segment bookkeeping
entered from `begin_record` panics — an `unwrap` of `content_length()` —
exactly when the header carries a `WARC-Segment-Number` that parses as a
strict integer while `Content-Length` is missing or unparsable; no error
is returned and no problem is recorded in that case.  Concretely: a
header with `WARC-Segment-Number: 2` and no `Content-Length` panics,
and the same header with `Content-Length: 3` is processed. -/
theorem C10_segment_unwrap_panic :
    (∀ h : WarcHeader, (verifierSegment h).isNone = true ↔
      ((∃ n, getU64Strict h.fields (bs "WARC-Segment-Number") = some (some n)) ∧
        contentLengthF h = none)) ∧
    verifierSegment ⟨bs "WARC/1.1", [(bs "WARC-Segment-Number", bs "2")]⟩ = none ∧
    (verifierSegment ⟨bs "WARC/1.1",
      [(bs "WARC-Segment-Number", bs "2"),
       (bs "Content-Length", bs "3")]⟩).isSome = true := by
  refine ⟨?_, by decide, by decide⟩
  intro h
  unfold verifierSegment
  cases hn : getU64Strict h.fields (bs "WARC-Segment-Number") with
  | none => simp
  | some o =>
    cases o with
    | none => simp
    | some number =>
      dsimp only
      by_cases h1 : number = 1
      · rw [if_pos h1, map_isNone_iff_cl (segmentBegin_none h) _]
        constructor
        · intro hcl
          exact ⟨⟨number, rfl⟩, hcl⟩
        · exact fun hx => hx.2
      · rw [if_neg h1]
        by_cases ht : fmContains h.fields (bs "WARC-Segment-Total-Length") = true
        · rw [if_pos ht, map_isNone_iff_cl (segmentEnd_none h number) _]
          constructor
          · intro hcl
            exact ⟨⟨number, rfl⟩, hcl⟩
          · exact fun hx => hx.2
        · rw [if_neg ht, map_isNone_iff_cl (segmentMiddle_none h number) _]
          constructor
          · intro hcl
            exact ⟨⟨number, rfl⟩, hcl⟩
          · exact fun hx => hx.2
